import Mathlib

/-!
Verification of the RepWatch vote-resolution core.

The JavaScript sources are shallowly embedded: JS strings become `List Char`
(abbreviated `Str`), JS numbers in the integer-valued positions become `Int`
or `Nat`, fallible constructors (`throw new Error`) become `Except Str`,
and the JS `Map`s inside `BillStatusIndex` become association lists.
Regular-expression tests and replacements used by the sources are embedded
as hand-written scanners that implement the same matching semantics on the
ASCII inputs the system processes.
-/

/-- JS strings are modelled as lists of characters. -/
abbrev Str := List Char

/-- Convert a Lean string literal into the model representation. -/
def s2l (s : String) : Str := s.data

/-- Model of the character class matched by `\s` in JS regexes (ASCII part),
also used by `String.prototype.trim`. -/
def isSpaceJS (c : Char) : Bool :=
  c == ' ' || c == '\t' || c == '\n' || c == '\r' || c == Char.ofNat 11 || c == Char.ofNat 12

/-- ASCII lower-case letter (the class `[a-z]`). -/
def isLowerAlpha (c : Char) : Bool := 'a' ≤ c && c ≤ 'z'

/-- ASCII upper-case letter (the class `[A-Z]`). -/
def isUpperAlpha (c : Char) : Bool := 'A' ≤ c && c ≤ 'Z'

/-- Word character for the `\b` boundary in JS regexes: `[A-Za-z0-9_]`. -/
def isWordCh (c : Char) : Bool :=
  isLowerAlpha c || isUpperAlpha c || c.isDigit || c == '_'

/-- Model of `String.prototype.toLowerCase` on one ASCII character. -/
def lowerChar (c : Char) : Char :=
  if isUpperAlpha c then Char.ofNat (c.toNat + 32) else c

/-- Model of `String.prototype.toLowerCase`. -/
def jsToLower (s : Str) : Str := s.map lowerChar

/-- Case-insensitive character equality, as used by `/.../i` regexes. -/
def eqCI (a b : Char) : Bool := lowerChar a == lowerChar b

/-- The decimal digit character for `k < 10`. -/
def digitChar (k : Nat) : Char := Char.ofNat (48 + k)

/-- Numeric value of a decimal digit character. -/
def digitVal (c : Char) : Nat := c.toNat - 48

/-- Fuelled helper for `natToDec` (structural recursion keeps it
kernel-evaluable). -/
def natToDecAux : Nat → Nat → Str
  | 0, _ => []
  | f + 1, n =>
    if n < 10 then [digitChar n]
    else natToDecAux f (n / 10) ++ [digitChar (n % 10)]

/-- Decimal representation of a natural number, most significant digit
first; models the JS number-to-string conversion for non-negative integers
(template literals, `String(n)`). -/
def natToDec (n : Nat) : Str := natToDecAux (n + 1) n

/-- Decimal representation of an integer (JS number-to-string conversion). -/
def intToDec (i : Int) : Str :=
  if i < 0 then '-' :: natToDec (-i).toNat else natToDec i.toNat

/-- Value of a string of decimal digits, accumulator form. -/
def decValue (l : Str) : Nat := l.foldl (fun a c => a * 10 + digitVal c) 0

/-- Parse the leading run of decimal digits of a string; `none` when the
string does not start with a digit. -/
def parseNatPrefix (l : Str) : Option Nat :=
  let ds := l.takeWhile Char.isDigit
  if ds.isEmpty then none else some (decValue ds)

/-- Model of `parseInt(s, 10)`: skip leading whitespace, read an optional
sign and then the longest digit prefix; `none` models the `NaN` result. -/
def parseIntJS (s : Str) : Option Int :=
  match s.dropWhile isSpaceJS with
  | '-' :: rest => (parseNatPrefix rest).map (fun n => -(n : Int))
  | '+' :: rest => (parseNatPrefix rest).map (fun n => (n : Int))
  | t => (parseNatPrefix t).map (fun n => (n : Int))

/-- A JS value in a number-or-string argument position. -/
inductive JSVal where
  | num (n : Int)
  | str (s : Str)
deriving DecidableEq, Repr

/-- `parseInt(v, 10)` on a number-or-string argument: an integer number is
converted to its decimal string first, which parses back to itself. -/
def parseIntVal : JSVal → Option Int
  | .num n => some n
  | .str s => parseIntJS s

/-- Model of `String.prototype.split` with a one-character separator:
split at every occurrence of the separator, keeping empty pieces. -/
def splitChar (sep : Char) : Str → List Str
  | [] => [[]]
  | c :: cs =>
    if c = sep then [] :: splitChar sep cs
    else
      match splitChar sep cs with
      | [] => [[c]]
      | p :: ps => (c :: p) :: ps

/-! ### Calendar dates

`makeVoteKey` normalizes its date argument with `new Date(...)` followed by
`toISOString().split('T')[0]`. The JS date parser itself is
environment-defined for non-ISO formats, so the parsed date is embedded as
an explicit calendar date; `none` models an argument on which `new Date`
yields `Invalid Date` (or an argument of invalid type). -/

structure CalDate where
  year : Nat
  month : Nat
  day : Nat
deriving DecidableEq, Repr

def isLeapYear (y : Nat) : Bool := (y % 4 == 0 && y % 100 != 0) || y % 400 == 0

def daysInMonth (y m : Nat) : Nat :=
  if m = 2 then (if isLeapYear y then 29 else 28)
  else if m = 4 ∨ m = 6 ∨ m = 9 ∨ m = 11 then 30
  else 31

def validCalDate (dt : CalDate) : Bool :=
  1 ≤ dt.month && dt.month ≤ 12 && 1 ≤ dt.day && dt.day ≤ daysInMonth dt.year dt.month

/-- Left-pad with zeros to width `k`. -/
def padZeros (k : Nat) (l : Str) : Str := List.replicate (k - l.length) '0' ++ l

def padNat (k n : Nat) : Str := padZeros k (natToDec n)

/-- The `YYYY-MM-DD` string produced by `toISOString().split('T')[0]`. -/
def isoOfDate (dt : CalDate) : Str :=
  padNat 4 dt.year ++ '-' :: (padNat 2 dt.month ++ '-' :: padNat 2 dt.day)

/-- Model of `new Date(s)` on ISO `YYYY-MM-DD` strings (the format the
index and resolver exchange); anything else is rejected. -/
def parseISODate (s : Str) : Option CalDate :=
  match splitChar '-' s with
  | [ys, ms, ds] =>
    if ys.length = 4 ∧ ms.length = 2 ∧ ds.length = 2
        ∧ (∀ c ∈ ys, c.isDigit = true) ∧ (∀ c ∈ ms, c.isDigit = true)
        ∧ (∀ c ∈ ds, c.isDigit = true) then
      let dt : CalDate := ⟨decValue ys, decValue ms, decValue ds⟩
      if validCalDate dt then some dt else none
    else none
  | _ => none

def nextDay (dt : CalDate) : CalDate :=
  if dt.day < daysInMonth dt.year dt.month then ⟨dt.year, dt.month, dt.day + 1⟩
  else if dt.month < 12 then ⟨dt.year, dt.month + 1, 1⟩
  else ⟨dt.year + 1, 1, 1⟩

def prevDay (dt : CalDate) : CalDate :=
  if 1 < dt.day then ⟨dt.year, dt.month, dt.day - 1⟩
  else if 1 < dt.month then ⟨dt.year, dt.month - 1, daysInMonth dt.year (dt.month - 1)⟩
  else ⟨dt.year - 1, 12, 31⟩

/-- Model of `d.setDate(d.getDate() + k)`: shift a calendar date by `k`
days. -/
def addDays (dt : CalDate) (k : Int) : CalDate :=
  if 0 ≤ k then nextDay^[k.toNat] dt else prevDay^[(-k).toNat] dt

/-- Days before the first day of month `m` in year `y`. -/
def daysBeforeMonth (y m : Nat) : Nat :=
  (List.range (m - 1)).foldl (fun a i => a + daysInMonth y (i + 1)) 0

/-- Proleptic-Gregorian day number (rata die style), used to model the
millisecond subtraction in `getDateOffset`. -/
def dayNumber (dt : CalDate) : Int :=
  let y := dt.year - 1
  (365 * y + y / 4 - y / 100 + y / 400 + daysBeforeMonth dt.year dt.month + dt.day : Nat)

/-! ### Key System (`lib/vote_keys.js`) -/

def jsValToStr : JSVal → Str
  | .num n => intToDec n
  | .str s => s

/-- `makeVoteKey(chamber, date, rollNumber)`. -/
def makeVoteKey (chamber : Str) (date : Option CalDate) (rollNumber : JSVal) :
    Except Str Str :=
  let normalizedChamber := jsToLower chamber
  match date with
  | none => .error (s2l "Invalid date")
  | some d =>
    let dateStr := isoOfDate d
    match parseIntVal rollNumber with
    | none => .error (s2l "Invalid roll number: " ++ jsValToStr rollNumber)
    | some rollNum =>
      if rollNum < 1 then .error (s2l "Invalid roll number: " ++ jsValToStr rollNumber)
      else .ok (normalizedChamber ++ ':' :: (dateStr ++ ':' :: intToDec rollNum))

def VALID_BILL_TYPES : List Str :=
  [s2l "hr", s2l "s", s2l "hjres", s2l "sjres", s2l "hconres", s2l "sconres",
   s2l "hres", s2l "sres"]

/-- `billType.toLowerCase().replace(/\./g, '')`. -/
def normalizeBillType (billType : Str) : Str :=
  (jsToLower billType).filter (fun c => c ≠ '.')

/-- `makeBillKey(congress, billType, billNumber)`. -/
def makeBillKey (congress : JSVal) (billType : Str) (billNumber : JSVal) :
    Except Str Str :=
  match parseIntVal congress with
  | none => .error (s2l "Invalid congress number: " ++ jsValToStr congress)
  | some congressNum =>
    if congressNum < 1 then .error (s2l "Invalid congress number: " ++ jsValToStr congress)
    else
      let normalizedType := normalizeBillType billType
      if normalizedType ∈ VALID_BILL_TYPES then
        match parseIntVal billNumber with
        | none => .error (s2l "Invalid bill number: " ++ jsValToStr billNumber)
        | some billNum =>
          if billNum < 1 then .error (s2l "Invalid bill number: " ++ jsValToStr billNumber)
          else .ok (intToDec congressNum ++ ':' :: (normalizedType ++ ':' :: intToDec billNum))
      else .error (s2l "Invalid bill type: " ++ billType)

structure ParsedVoteKey where
  chamber : Str
  date : Str
  rollNumber : Option Int
deriving DecidableEq, Repr

/-- `parseVoteKey(voteKey)`; the `rollNumber` field is `parseInt(parts[2])`,
whose `NaN` outcome is modelled as `none`. -/
def parseVoteKey (voteKey : Str) : Except Str ParsedVoteKey :=
  match splitChar ':' voteKey with
  | [c, d, r] => .ok ⟨c, d, parseIntJS r⟩
  | _ => .error (s2l "Invalid vote key format: " ++ voteKey)

structure ParsedBillKey where
  congress : Option Int
  billType : Str
  billNumber : Option Int
deriving DecidableEq, Repr

/-- `parseBillKey(billKey)`. -/
def parseBillKey (billKey : Str) : Except Str ParsedBillKey :=
  match splitChar ':' billKey with
  | [c, t, n] => .ok ⟨parseIntJS c, t, parseIntJS n⟩
  | _ => .error (s2l "Invalid bill key format: " ++ billKey)

/-! ### Regex scanners

The sources use a small set of regex shapes (word-bounded literal phrases,
flexible bill-reference tokens, global replacements). They are embedded as
deterministic scanners; the determinizations are equivalent to the JS
backtracking semantics for these patterns because every optional element
(`\.?,` `(?:No\.\s+)?`, `,?`) is followed by a requirement that the
optional text itself can never satisfy. -/

/-- Left word boundary `\b` before a word character: holds at the start of
the string or after a non-word character. -/
def boundaryL (prev : Option Char) : Bool :=
  match prev with
  | none => true
  | some c => !isWordCh c

/-- Right word boundary `\b` after a word character: end of string or a
non-word character next. -/
def boundaryR (s : Str) : Bool :=
  match s with
  | [] => true
  | c :: _ => !isWordCh c

/-- Match a literal, case-insensitively when `ci`; returns the remaining
input. -/
def stripLit (ci : Bool) : Str → Str → Option Str
  | [], s => some s
  | _ :: _, [] => none
  | p :: ps, c :: cs =>
    if (if ci then eqCI p c else p == c) then stripLit ci ps cs else none

def stripLitCI : Str → Str → Option Str := stripLit true

/-- `\s+` followed by nothing else: at least one whitespace character, then
the rest of the whitespace run. -/
def stripWS1 : Str → Option Str
  | [] => none
  | c :: r => if isSpaceJS c then some (r.dropWhile isSpaceJS) else none

/-- `\s*\.?\s*`: the flexible separator of the bill-reference patterns. -/
def stripSeps (s : Str) : Str :=
  match s.dropWhile isSpaceJS with
  | '.' :: r => r.dropWhile isSpaceJS
  | t => t

/-- `(\d+)`: the captured digit run and the remaining input. -/
def stripDigits (s : Str) : Option (Str × Str) :=
  let ds := s.takeWhile Char.isDigit
  if ds.isEmpty then none else some (ds, s.dropWhile Char.isDigit)

/-- Run a positional matcher at every position of the string (the regex
scan loop), tracking the previous character for `\b` tests. -/
def scanFrom (m : Option Char → Str → Option α) : Option Char → Str → Option α
  | prev, [] => m prev []
  | prev, c :: cs =>
    match m prev (c :: cs) with
    | some r => some r
    | none => scanFrom m (some c) cs

def scanStr (m : Option Char → Str → Option α) (s : Str) : Option α :=
  scanFrom m none s

/-! ### `extractBillReference` (`lib/vote_keys.js`) -/

structure BillRef where
  billType : Str
  billNumber : Int
deriving DecidableEq, Repr

/-- Matcher for one pattern of the shape
`\bP1\s*\.?\s*P2\s*\.?\s* ... (\d+)\b`; yields the parsed bill number. -/
def billPatAt (parts : List Str) (prev : Option Char) (s : Str) : Option Int :=
  if boundaryL prev then
    match go parts s with
    | some t =>
      match stripDigits t with
      | some (ds, rest) => if boundaryR rest then some (decValue ds : Int) else none
      | none => none
    | none => none
  else none
where
  go : List Str → Str → Option Str
    | [], t => some t
    | p :: ps, t =>
      match stripLitCI p t with
      | some t1 => go ps (stripSeps t1)
      | none => none

/-- Matcher for the compact fallback `\bHR\s*(\d+)\b` / `\bS(\d+)\b`:
a contiguous literal, optional whitespace when `ws`, digits, boundary. -/
def compactPatAt (lit : Str) (ws : Bool) (prev : Option Char) (s : Str) : Option Int :=
  if boundaryL prev then
    match stripLitCI lit s with
    | some t1 =>
      let t2 := if ws then t1.dropWhile isSpaceJS else t1
      match stripDigits t2 with
      | some (ds, rest) => if boundaryR rest then some (decValue ds : Int) else none
      | none => none
    | none => none
  else none

/-- The ordered pattern list of `extractBillReference`. -/
def billRefPatterns : List ((Option Char → Str → Option Int) × Str) :=
  [(billPatAt [s2l "h", s2l "r"], s2l "hr"),
   (billPatAt [s2l "s"], s2l "s"),
   (billPatAt [s2l "h", s2l "j", s2l "res"], s2l "hjres"),
   (billPatAt [s2l "s", s2l "j", s2l "res"], s2l "sjres"),
   (billPatAt [s2l "h", s2l "con", s2l "res"], s2l "hconres"),
   (billPatAt [s2l "s", s2l "con", s2l "res"], s2l "sconres"),
   (billPatAt [s2l "h", s2l "res"], s2l "hres"),
   (billPatAt [s2l "s", s2l "res"], s2l "sres"),
   (compactPatAt (s2l "hr") true, s2l "hr"),
   (compactPatAt (s2l "s") false, s2l "s")]

/-- `extractBillReference(text)`. -/
def extractBillReference (text : Option Str) : Option BillRef :=
  match text with
  | none => none
  | some t =>
    if t.isEmpty then none
    else
      billRefPatterns.findSome? (fun pr =>
        (scanStr pr.1 t).map (fun n => ⟨pr.2, n⟩))

/-! ### Motion canonicalizer (`lib/motion_normalizer.js`) -/

/-- One regex of a motion family: word-bounded phrase alternatives, with a
case-insensitivity flag (`/\bMTR\b/` is the one case-sensitive pattern). -/
structure MotionPattern where
  alts : List Str
  ci : Bool
deriving Repr

/-- Word-bounded phrase occurrence at one position. -/
def phraseAt (ci : Bool) (phrase : Str) (prev : Option Char) (s : Str) : Option Unit :=
  if boundaryL prev then
    match stripLit ci phrase s with
    | some rest => if boundaryR rest then some () else none
    | none => none
  else none

/-- `pattern.test(text)` for a word-bounded phrase pattern. -/
def testMotionPattern (p : MotionPattern) (s : Str) : Bool :=
  p.alts.any (fun a => (scanStr (phraseAt p.ci a) s).isSome)

def mp (ph : String) : MotionPattern := ⟨[s2l ph], true⟩

/-- `MOTION_FAMILIES`, in source (insertion) order. -/
def MOTION_FAMILIES : List (Str × List MotionPattern) :=
  [(s2l "On Passage",
    [mp "on passage", mp "passage of", mp "to pass", mp "final passage"]),
   (s2l "On Agreeing",
    [mp "on agreeing to", mp "agreeing to", mp "to agree"]),
   (s2l "Motion to Recommit",
    [mp "motion to recommit", ⟨[s2l "MTR"], false⟩, mp "recommit"]),
   (s2l "Previous Question",
    [mp "previous question", mp "order the previous question"]),
   (s2l "Suspend the Rules",
    [⟨[s2l "suspend the rules", s2l "suspending the rules"], true⟩,
     mp "suspension of the rules"]),
   (s2l "On the Amendment",
    [mp "on the amendment", mp "amendment"]),
   (s2l "On the Resolution",
    [mp "on the resolution", mp "on adopting the resolution"]),
   (s2l "On the Conference Report",
    [mp "conference report"]),
   (s2l "On Concurring",
    [mp "on concurring", mp "concur"]),
   (s2l "On Cloture",
    [mp "cloture", mp "motion to invoke cloture"]),
   (s2l "On the Motion to Proceed",
    [mp "motion to proceed", mp "to proceed"]),
   (s2l "On the Nomination",
    [mp "on the nomination", mp "nomination"])]

/-- `trim()`. -/
def trimJS (s : Str) : Str :=
  ((s.dropWhile isSpaceJS).reverse.dropWhile isSpaceJS).reverse

/-- Helper for `collapseWS`: `inRun` records whether the previous
character was whitespace (already emitted as the single `' '`). -/
def collapseWSAux (inRun : Bool) : Str → Str
  | [] => []
  | c :: cs =>
    if isSpaceJS c then
      if inRun then collapseWSAux true cs
      else ' ' :: collapseWSAux true cs
    else c :: collapseWSAux false cs

/-- `replace(/\s+/g, ' ')`: each whitespace run becomes a single space. -/
def collapseWS (s : Str) : Str := collapseWSAux false s

/-- The literal alternatives of the bill-reference stripping regex in
`simplifyMotionText`, in alternation order. -/
def BILLREF_LITS : List Str :=
  [s2l "h.r.", s2l "s.", s2l "h.j.res.", s2l "s.j.res.", s2l "h.con.res.",
   s2l "s.con.res.", s2l "h.res.", s2l "s.res."]

/-- One match of `/\b(H\.R\.|S\.|…)\s*\d+/i` at a position: returns the last
matched character and the remaining input. -/
def billRefStripAt (prev : Option Char) (s : Str) : Option (Char × Str) :=
  if boundaryL prev then
    BILLREF_LITS.findSome? (fun alt =>
      match stripLitCI alt s with
      | some t1 =>
        match stripDigits (t1.dropWhile isSpaceJS) with
        | some (ds, rest) => some (ds.getLastD '0', rest)
        | none => none
      | none => none)
  else none

/-- One match of `/,?\s*as amended/i` at a position. -/
def asAmendedAt (_prev : Option Char) (s : Str) : Option (Char × Str) :=
  let t := match s with
    | ',' :: r => r
    | _ => s
  (stripLitCI (s2l "as amended") (t.dropWhile isSpaceJS)).map (fun rest => ('d', rest))

/-- The first `k` characters if they are all digits; with the remainder. -/
def takeKDigits (k : Nat) (s : Str) : Option (Str × Str) :=
  let ds := s.take k
  if ds.length = k && ds.all Char.isDigit then some (ds, s.drop k) else none

/-- One match of `/\b\d{1,2}\/\d{1,2}\/\d{2,4}\b/` at a position, with the
greedy-then-backtrack order of the bounded quantifiers. -/
def dateStripAt (prev : Option Char) (s : Str) : Option (Char × Str) :=
  if boundaryL prev then
    [2, 1].findSome? (fun k1 =>
      match takeKDigits k1 s with
      | some (_, t1) =>
        match t1 with
        | '/' :: t2 =>
          [2, 1].findSome? (fun k2 =>
            match takeKDigits k2 t2 with
            | some (_, t3) =>
              match t3 with
              | '/' :: t4 =>
                [4, 3, 2].findSome? (fun k3 =>
                  match takeKDigits k3 t4 with
                  | some (ds, rest) =>
                    if boundaryR rest then some (ds.getLastD '0', rest) else none
                  | none => none)
              | _ => none
            | none => none)
        | _ => none
      | none => none)
  else none

/-- Global regex replacement by the empty string: repeatedly find the
leftmost match and delete it, resuming after the deleted span (fuelled by
the string length; every match consumes at least one character). -/
def removeAllFuel (m : Option Char → Str → Option (Char × Str)) :
    Nat → Option Char → Str → Str
  | 0, _, s => s
  | _ + 1, _, [] => []
  | fuel + 1, prev, c :: cs =>
    match m prev (c :: cs) with
    | some (lastc, rest) => removeAllFuel m fuel (some lastc) rest
    | none => c :: removeAllFuel m fuel (some c) cs

def removeAll (m : Option Char → Str → Option (Char × Str)) (s : Str) : Str :=
  removeAllFuel m (s.length + 1) none s

/-- `simplifyMotionText(text)`. -/
def simplifyMotionText (text : Str) : Str :=
  let s1 := removeAll billRefStripAt text
  let s2 := removeAll asAmendedAt s1
  let s3 := removeAll dateStripAt s2
  trimJS (collapseWS s3)

/-- `{family, confidence}` result of `canonicalizeMotion`. -/
structure CanonMotion where
  family : Option Str
  confidence : Str
deriving DecidableEq, Repr

/-- JS falsiness of a possibly-absent string. -/
def jsFalsyStr (o : Option Str) : Bool :=
  match o with
  | none => true
  | some s => s.isEmpty

/-- `canonicalizeMotion(motionText)`; the nested first-match loop over
`Object.entries(MOTION_FAMILIES)` is `findSome?` over the table. -/
def canonicalizeMotion (motionText : Option Str) : CanonMotion :=
  if jsFalsyStr motionText then ⟨none, s2l "low"⟩
  else
    let normalized := trimJS (motionText.getD [])
    match MOTION_FAMILIES.findSome? (fun f =>
        if f.2.any (fun p => testMotionPattern p normalized) then some f.1 else none) with
    | some fam => ⟨some fam, s2l "high"⟩
    | none => ⟨some (simplifyMotionText normalized), s2l "medium"⟩

/-- `s.includes(sub)`: contiguous substring containment. -/
def containsSub (sub : Str) : Str → Bool
  | [] => sub.isEmpty
  | c :: cs => sub.isPrefixOf (c :: cs) || containsSub sub cs

structure MotionCmp where
  isMatch : Bool
  score : ℚ
deriving DecidableEq, Repr

/-- Truthiness of the `family` field (`null` and `""` are falsy). -/
def famTruthy (o : Option Str) : Bool :=
  match o with
  | none => false
  | some s => !s.isEmpty

/-- `compareMotions(motion1, motion2)`. -/
def compareMotions (motion1 motion2 : Option Str) : MotionCmp :=
  let canon1 := canonicalizeMotion motion1
  let canon2 := canonicalizeMotion motion2
  if famTruthy canon1.family && famTruthy canon2.family
      && canon1.family == canon2.family then
    ⟨true, 1⟩
  else
    let simple1 := jsToLower (simplifyMotionText (motion1.getD []))
    let simple2 := jsToLower (simplifyMotionText (motion2.getD []))
    if simple1 == simple2 then ⟨true, mkRat 9 10⟩
    else if containsSub simple2 simple1 || containsSub simple1 simple2 then ⟨true, mkRat 7 10⟩
    else ⟨false, 0⟩

structure Amendment where
  type : Str
  number : Str
deriving DecidableEq, Repr

/-- `(?:No\.\s+)?(\d+)`: the shared tail of the first two amendment
patterns. -/
def amdNumAfter (t : Str) : Option Str :=
  let withNo : Option Str :=
    match stripLitCI (s2l "no.") t with
    | some t1 =>
      match stripWS1 t1 with
      | some t2 =>
        match stripDigits t2 with
        | some (ds, _) => some ds
        | none => none
      | none => none
    | none => none
  match withNo with
  | some d => some d
  | none =>
    match stripDigits t with
    | some (ds, _) => some ds
    | none => none

/-- `/\bAmendment\s+(?:No\.\s+)?(\d+)/i` at one position. -/
def amdPat1At (prev : Option Char) (s : Str) : Option Str :=
  if boundaryL prev then do
    let t1 ← stripLitCI (s2l "amendment") s
    let t2 ← stripWS1 t1
    amdNumAfter t2
  else none

/-- `/\bAmdt\.?\s+(?:No\.\s+)?(\d+)/i` at one position. -/
def amdPat2At (prev : Option Char) (s : Str) : Option Str :=
  if boundaryL prev then do
    let t1 ← stripLitCI (s2l "amdt") s
    let t1b := match t1 with
      | '.' :: r => r
      | _ => t1
    let t2 ← stripWS1 t1b
    amdNumAfter t2
  else none

/-- `/\b(SA|HA)\s+(\d+)/i` at one position; the captured group 1 is the
matched chamber token with its original casing. -/
def amdPat3At (prev : Option Char) (s : Str) : Option Str :=
  if boundaryL prev then
    [s2l "sa", s2l "ha"].findSome? (fun alt =>
      match stripLitCI alt s with
      | some t1 =>
        match stripWS1 t1 with
        | some t2 => if (t2.takeWhile Char.isDigit).isEmpty then none else some (s.take 2)
        | none => none
      | none => none)
  else none

/-- `extractAmendment(motionText)`; pattern 3 returns `match[1] || match[2]`
where `match[1]` is the (truthy) chamber token, so `number` is that token. -/
def extractAmendment (motionText : Option Str) : Option Amendment :=
  match motionText with
  | none => none
  | some t =>
    if t.isEmpty then none
    else
      match scanStr amdPat1At t with
      | some n => some ⟨s2l "amendment", n⟩
      | none =>
        match scanStr amdPat2At t with
        | some n => some ⟨s2l "amendment", n⟩
        | none =>
          match scanStr amdPat3At t with
          | some n => some ⟨s2l "amendment", n⟩
          | none => none

/-! ### Bill-identifier normalizer (`normalizeBillId` and its mapping table) -/

/-- `BILL_TYPE_MAPPINGS`, in source order. -/
def BILL_TYPE_MAPPINGS : List (Str × Str) :=
  [(s2l "hr", s2l "hr"), (s2l "h.r.", s2l "hr"), (s2l "h.r", s2l "hr"),
   (s2l "h r", s2l "hr"), (s2l "hb", s2l "hr"), (s2l "house bill", s2l "hr"),
   (s2l "s", s2l "s"), (s2l "s.", s2l "s"), (s2l "sb", s2l "s"),
   (s2l "senate bill", s2l "s"),
   (s2l "hjres", s2l "hjres"), (s2l "h.j.res.", s2l "hjres"),
   (s2l "h.j.res", s2l "hjres"), (s2l "h j res", s2l "hjres"), (s2l "hjr", s2l "hjres"),
   (s2l "sjres", s2l "sjres"), (s2l "s.j.res.", s2l "sjres"),
   (s2l "s.j.res", s2l "sjres"), (s2l "s j res", s2l "sjres"), (s2l "sjr", s2l "sjres"),
   (s2l "hconres", s2l "hconres"), (s2l "h.con.res.", s2l "hconres"),
   (s2l "h.con.res", s2l "hconres"), (s2l "h con res", s2l "hconres"),
   (s2l "hcr", s2l "hconres"),
   (s2l "sconres", s2l "sconres"), (s2l "s.con.res.", s2l "sconres"),
   (s2l "s.con.res", s2l "sconres"), (s2l "s con res", s2l "sconres"),
   (s2l "scr", s2l "sconres"),
   (s2l "hres", s2l "hres"), (s2l "h.res.", s2l "hres"),
   (s2l "h.res", s2l "hres"), (s2l "h res", s2l "hres"),
   (s2l "sres", s2l "sres"), (s2l "s.res.", s2l "sres"),
   (s2l "s.res", s2l "sres"), (s2l "s res", s2l "sres")]

def lookupMapping (k : Str) : Option Str :=
  (BILL_TYPE_MAPPINGS.find? (fun p => p.1 == k)).map (fun p => p.2)

structure NormalizedBill where
  canonical : Str
  type : Str
  number : Int
  congress : Option Int
deriving DecidableEq, Repr

def isDashSpace (c : Char) : Bool := c == '-' || c == ' '

/-- `cleaned.match(/[- ]+(\d{3})$/)` plus the corresponding
`replace(/[- ]+\d{3}$/, '')`: the string must end in exactly three digits
preceded by at least one dash/space; stripping removes the digits and the
whole separator run. -/
def congressSuffix (s : Str) : Option (Nat × Str) :=
  match s.reverse with
  | l1 :: l2 :: l3 :: l4 :: rest =>
    if l1.isDigit && l2.isDigit && l3.isDigit && isDashSpace l4 then
      some (decValue [l3, l2, l1], ((l4 :: rest).dropWhile isDashSpace).reverse)
    else none
  | _ => none

/-- Character class of group 1 of the standard pattern
`^([a-z]+[\.\s]*(?:[a-z]+[\.\s]*)*?)[\s\.\-]*(\d+)$`. -/
def isG1Char (c : Char) : Bool := isLowerAlpha c || c == '.' || isSpaceJS c

def isSepTail (c : Char) : Bool := isSpaceJS c || c == '.' || c == '-'

/-- The standard pattern of `normalizeBillId`. Group 1 matches the maximal
prefix of letters, dots and spaces (starting with a letter); the optional
`[\s\.\-]*` run follows; the rest must be one or more digits reaching the
end of the string. Returns `(group1, digits)`. -/
def stdPattern (s : Str) : Option (Str × Str) :=
  match s with
  | [] => none
  | c :: _ =>
    if isLowerAlpha c then
      let g1 := s.takeWhile isG1Char
      let rest := (s.dropWhile isG1Char).dropWhile isSepTail
      if !rest.isEmpty && rest.all Char.isDigit then some (g1, rest) else none
    else none

/-- The compact pattern `^([a-z]+)(\d+)$`. -/
def compactPattern (s : Str) : Option (Str × Str) :=
  let ls := s.takeWhile isLowerAlpha
  let rest := s.dropWhile isLowerAlpha
  if !ls.isEmpty && !rest.isEmpty && rest.all Char.isDigit then some (ls, rest) else none

/-- The Legiscan pattern `^([hs])b(\d+)$`. -/
def legiscanPattern (s : Str) : Option (Char × Str) :=
  match s with
  | c :: 'b' :: rest =>
    if (c == 'h' || c == 's') && !rest.isEmpty && rest.all Char.isDigit then
      some (c, rest)
    else none
  | _ => none

def congressTruthy : Option Int → Bool
  | none => false
  | some c => c != 0

/-- Build the `{canonical, type, number, congress}` result object. -/
def mkNormalizedBill (ty : Str) (number : Nat) (congress : Option Int) : NormalizedBill :=
  let canonical :=
    if congressTruthy congress then
      ty ++ natToDec number ++ '-' :: intToDec (congress.getD 0)
    else ty ++ natToDec number
  ⟨canonical, ty, (number : Int), congress⟩

/-- `replace(/\./g, ' ')` on one character. -/
def dotToSpace (c : Char) : Char := if c == '.' then ' ' else c

/-- `normalizeBillId(billRef, congress)`. -/
def normalizeBillId (billRef : Option Str) (congress : Option Int) : Option NormalizedBill :=
  match billRef with
  | none => none
  | some raw =>
    if raw.isEmpty then none
    else
      let cleaned := collapseWS (trimJS (jsToLower raw))
      let st :=
        match congressSuffix cleaned with
        | some (cg, stripped) =>
          if !congressTruthy congress then (some (cg : Int), stripped)
          else (congress, cleaned)
        | none => (congress, cleaned)
      let cg := st.1
      let cleaned2 := st.2
      let r1 : Option NormalizedBill :=
        match stdPattern cleaned2 with
        | some (g1, ds) =>
          let typeRaw := trimJS (collapseWS (g1.map dotToSpace))
          let number := decValue ds
          match lookupMapping typeRaw with
          | some ty => if number ≠ 0 then some (mkNormalizedBill ty number cg) else none
          | none => none
        | none => none
      match r1 with
      | some b => some b
      | none =>
        let r2 : Option NormalizedBill :=
          match compactPattern cleaned2 with
          | some (ls, ds) =>
            let number := decValue ds
            match lookupMapping ls with
            | some ty => if number ≠ 0 then some (mkNormalizedBill ty number cg) else none
            | none => none
          | none => none
        match r2 with
        | some b => some b
        | none =>
          match legiscanPattern cleaned2 with
          | some (c, ds) =>
            let ty := if c == 'h' then s2l "hr" else s2l "s"
            let number := decValue ds
            if number ≠ 0 then some (mkNormalizedBill ty number cg) else none
          | none => none

/-! ### Bill-status index (`BillStatusIndex` query side)

The class owns four JS `Map`s, built once during the load phase and then
only read; they are embedded as association lists, with `Map.get`
modelled by first-match lookup. -/

structure IndexedAction where
  bill_key : Str
  action_date : Str
  action_text : Str
  roll_number : Option Int
  action_code : Str
  chamber : Option Str
deriving DecidableEq, Repr

structure UrlEntry where
  url : Str
  format : Str
deriving DecidableEq, Repr

structure BillStatusIndex where
  actionsByDate : List (Str × List IndexedAction)
  actionsByBillKey : List (Str × List IndexedAction)
  actionsByRoll : List (Str × IndexedAction)
  billTextUrls : List (Str × List UrlEntry)

/-- `Map.prototype.get` (with `has` folded in). -/
def mapGet (m : List (Str × α)) (k : Str) : Option α :=
  (m.find? (fun p => p.1 == k)).map (fun p => p.2)

/-- The `${chamber}:${date}:${rollNumber}` key of `actionsByRoll`. -/
def rollMapKey (chamber date : Str) (rollNumber : Int) : Str :=
  chamber ++ ':' :: (date ++ ':' :: intToDec rollNumber)

/-- The loop bounds `for (let offset = -windowDays; offset <= windowDays;
offset++)`, in ascending order. -/
def windowOffsets (w : Int) : List Int :=
  if w < 0 then [] else (List.range (2 * w.toNat + 1)).map (fun i : Nat => (i : Int) - w)

/-- `BillStatusIndex.findByExactRoll(chamber, date, rollNumber,
windowDays)`. -/
def findByExactRoll (idx : BillStatusIndex) (chamber date : Str) (rollNumber : Int)
    (windowDays : Int) : Option IndexedAction :=
  match mapGet idx.actionsByRoll (rollMapKey chamber date rollNumber) with
  | some a => some a
  | none =>
    match parseISODate date with
    | none => none
    | some dateObj =>
      (windowOffsets windowDays).findSome? (fun offset =>
        if offset = 0 then none
        else mapGet idx.actionsByRoll
          (rollMapKey chamber (isoOfDate (addDays dateObj offset)) rollNumber))

/-- `BillStatusIndex.findByBillAndDate(billKey, date)`. -/
def bsiFindByBillAndDate (idx : BillStatusIndex) (billKey date : Str) : List IndexedAction :=
  ((mapGet idx.actionsByBillKey billKey).getD []).filter (fun a => a.action_date == date)

/-- `BillStatusIndex.findByDate(date)`. -/
def bsiFindByDate (idx : BillStatusIndex) (date : Str) : List IndexedAction :=
  (mapGet idx.actionsByDate date).getD []

/-- `BillStatusIndex.getBillTextUrls(billKey)`. -/
def bsiGetBillTextUrls (idx : BillStatusIndex) (billKey : Str) : List UrlEntry :=
  (mapGet idx.billTextUrls billKey).getD []

/-! ### Vote resolver (`services/vote_resolver.js`)

The resolver accesses its index only through the four query methods plus
the optional duck-typed `findByBillKey` (present on the issues-based
index); an `ActionIndex` bundles those functions, so the resolver
definition covers both index implementations. -/

structure Issue where
  id : Int
  title : Str
deriving DecidableEq, Repr

structure ActionIndex where
  findByBillKey : Option (Str → Option Issue)
  findByExactRoll : Str → Str → Int → Int → Option IndexedAction
  findByBillAndDate : Str → Str → List IndexedAction
  findByDate : Str → List IndexedAction
  getBillTextUrls : Str → List UrlEntry

/-- The `ActionIndex` view of a concrete `BillStatusIndex` (which has no
`findByBillKey` method). -/
def BillStatusIndex.toActionIndex (idx : BillStatusIndex) : ActionIndex :=
  ⟨none, findByExactRoll idx, bsiFindByBillAndDate idx, bsiFindByDate idx,
   bsiGetBillTextUrls idx⟩

structure NormalizedVote where
  vote_key : Str
  chamber : Str
  congress : Int
  vote_date : Str
  roll_number : Int
  question : Option Str
  bill_key : Option Str
  bill_number : Option Str
deriving DecidableEq, Repr

/-- Strategy-specific `metadata` object of a resolution result. -/
inductive ResMetadata where
  | empty
  | direct (issue_id : Int) (issue_title : Str)
  | exactRoll (action_text action_date : Str) (date_offset : Option Int)
  | sameDay (action_text action_date : Str)
  | motionMeta (action_text action_date : Str) (motion_score : ℚ)
  | amendMeta (action_text action_date : Str) (amendment_number : Str) (parent_bill : Str)
deriving DecidableEq, Repr

structure ResolutionResult where
  vote_key : Str
  bill_key : Option Str
  match_step : Str
  confidence : ℚ
  reason_if_none : Option Str
  bill_text_urls : List Str
  metadata : ResMetadata
deriving DecidableEq, Repr

/-- JS truthiness of an optional string field. -/
def jsTruthyOptStr (o : Option Str) : Bool :=
  match o with
  | none => false
  | some s => !s.isEmpty

/-- `getDateOffset(date1, date2)`: millisecond subtraction of the two
parsed dates divided by a day; `none` models the `NaN` outcome on an
unparsable date. -/
def getDateOffset (date1 date2 : Str) : Option Int :=
  match parseISODate date1, parseISODate date2 with
  | some d1, some d2 => some (dayNumber d2 - dayNumber d1)
  | _, _ => none

structure DirectMatch where
  bill_key : Str
  issue_id : Int
  issue_title : Str
  bill_text_urls : List Str
deriving DecidableEq, Repr

/-- `resolveByDirectBillKey(vote)`. -/
def resolveByDirectBillKey (idx : ActionIndex) (v : NormalizedVote) : Option DirectMatch :=
  if !jsTruthyOptStr v.bill_key then none
  else
    match idx.findByBillKey with
    | none => none
    | some f =>
      match f (v.bill_key.getD []) with
      | some issue =>
        some ⟨v.bill_key.getD [], issue.id, issue.title,
          (idx.getBillTextUrls (v.bill_key.getD [])).map (fun u => u.url)⟩
      | none => none

/-- `resolveByExactRoll(vote)`: a lookup with the fixed one-day window. -/
def resolveByExactRoll (idx : ActionIndex) (v : NormalizedVote) : Option IndexedAction :=
  idx.findByExactRoll v.chamber v.vote_date v.roll_number 1

/-- `resolveByBillSameDay(vote)`: the first same-date action of the bill. -/
def resolveByBillSameDay (idx : ActionIndex) (v : NormalizedVote) : Option IndexedAction :=
  if !jsTruthyOptStr v.bill_key then none
  else (idx.findByBillAndDate (v.bill_key.getD []) v.vote_date).head?

/-- Truthiness of an action chamber (`null`/absent and `""` are falsy). -/
def chamberTruthy (o : Option Str) : Bool :=
  match o with
  | none => false
  | some s => !s.isEmpty

structure MotionMatch where
  action : IndexedAction
  score : ℚ
deriving DecidableEq, Repr

/-- The loop body of `resolveByMotion`, tracking `bestMatch`/`bestScore`. -/
def motionStep (q : Option Str) (vchamber : Str) (acc : Option IndexedAction × ℚ)
    (action : IndexedAction) : Option IndexedAction × ℚ :=
  if chamberTruthy action.chamber ∧ action.chamber ≠ some vchamber then acc
  else
    let comparison := compareMotions q (some action.action_text)
    if comparison.isMatch = true ∧ mkRat 7 10 ≤ comparison.score ∧ acc.2 < comparison.score
    then (some action, comparison.score)
    else acc

/-- `resolveByMotion(vote)`. -/
def resolveByMotion (idx : ActionIndex) (v : NormalizedVote) : Option MotionMatch :=
  let actions := idx.findByDate v.vote_date
  let st := actions.foldl (motionStep v.question v.chamber) (none, 0)
  st.1.map (fun a => ⟨a, st.2⟩)

structure AmendMatch where
  action : IndexedAction
  amendment_number : Str
deriving DecidableEq, Repr

/-- `resolveByAmendment(vote)`; the second branch constructs a bill key
with `makeBillKey`, which can throw. -/
def resolveByAmendment (idx : ActionIndex) (v : NormalizedVote) :
    Except Str (Option AmendMatch) :=
  match extractAmendment v.question with
  | none => .ok none
  | some amd =>
    let viaBillKey : Option AmendMatch :=
      if jsTruthyOptStr v.bill_key then
        match (idx.findByBillAndDate (v.bill_key.getD []) v.vote_date).head? with
        | some a => some ⟨a, amd.number⟩
        | none => none
      else none
    match viaBillKey with
    | some m => .ok (some m)
    | none =>
      match extractBillReference v.question with
      | none => .ok none
      | some billRef =>
        match makeBillKey (.num v.congress) billRef.billType (.num billRef.billNumber) with
        | .error e => .error e
        | .ok billKey =>
          match (idx.findByBillAndDate billKey v.vote_date).head? with
          | some a => .ok (some ⟨a, amd.number⟩)
          | none => .ok none

def joinSep (sep : Str) : List Str → Str
  | [] => []
  | [x] => x
  | x :: y :: xs => x ++ sep ++ joinSep sep (y :: xs)

/-- `determineFailureReason(vote)`. -/
def determineFailureReason (idx : ActionIndex) (v : NormalizedVote) : Str :=
  let r1 : List Str :=
    if !jsTruthyOptStr v.bill_key && !jsTruthyOptStr v.bill_number then
      [s2l "no_bill_reference_in_vote"]
    else []
  let actionsOnDate := idx.findByDate v.vote_date
  let r2 : List Str :=
    if actionsOnDate.isEmpty then [s2l "no_actions_indexed_for_date"] else []
  let chamberActions := actionsOnDate.filter
    (fun a => !chamberTruthy a.chamber || a.chamber == some v.chamber)
  let r3 : List Str :=
    if chamberActions.isEmpty then [s2l "no_chamber_actions_on_date"] else []
  let r4 : List Str :=
    if jsFalsyStr v.question || (trimJS (v.question.getD [])).isEmpty then
      [s2l "no_motion_text"]
    else []
  let reasons := r1 ++ r2 ++ r3 ++ r4
  let reasons := if reasons.isEmpty then [s2l "no_matching_criteria"] else reasons
  joinSep (s2l "; ") reasons

/-- `VoteResolver.resolve(vote)`: the five strategies in priority order,
then the structured failure result. The one `throw` reachable from a
well-formed vote propagates as `Except.error`. -/
def resolve (idx : ActionIndex) (v : NormalizedVote) : Except Str ResolutionResult :=
  match (if jsTruthyOptStr v.bill_key then resolveByDirectBillKey idx v else none) with
  | some dm =>
    .ok ⟨v.vote_key, some dm.bill_key, s2l "direct_bill_key", 1, none,
      dm.bill_text_urls, .direct dm.issue_id dm.issue_title⟩
  | none =>
    match resolveByExactRoll idx v with
    | some er =>
      .ok ⟨v.vote_key, some er.bill_key, s2l "exact_roll", 1, none,
        (idx.getBillTextUrls er.bill_key).map (fun u => u.url),
        .exactRoll er.action_text er.action_date (getDateOffset v.vote_date er.action_date)⟩
    | none =>
      match (if jsTruthyOptStr v.bill_key then resolveByBillSameDay idx v else none) with
      | some sd =>
        .ok ⟨v.vote_key, some sd.bill_key, s2l "bill_same_day", mkRat 9 10, none,
          (idx.getBillTextUrls sd.bill_key).map (fun u => u.url),
          .sameDay sd.action_text sd.action_date⟩
      | none =>
        match resolveByMotion idx v with
        | some mm =>
          .ok ⟨v.vote_key, some mm.action.bill_key, s2l "motion", mm.score, none,
            (idx.getBillTextUrls mm.action.bill_key).map (fun u => u.url),
            .motionMeta mm.action.action_text mm.action.action_date mm.score⟩
        | none =>
          match resolveByAmendment idx v with
          | .error e => .error e
          | .ok (some am) =>
            .ok ⟨v.vote_key, some am.action.bill_key, s2l "amendment", mkRat 7 10, none,
              (idx.getBillTextUrls am.action.bill_key).map (fun u => u.url),
              .amendMeta am.action.action_text am.action.action_date am.amendment_number
                am.action.bill_key⟩
          | .ok none =>
            .ok ⟨v.vote_key, none, s2l "none", 0,
              some (determineFailureReason idx v), [], .empty⟩

/-- One record of the in-memory resolution log (`logResolution`). -/
structure LogEntry where
  timestamp : Str
  result : ResolutionResult
deriving DecidableEq, Repr

/-- One `resolve` call observed through its effect on the log: a normal
return appends exactly its result, a thrown error leaves the log
untouched. -/
def stepResolver (idx : ActionIndex) (log : List LogEntry)
    (call : NormalizedVote × Str) : List LogEntry :=
  match resolve idx call.1 with
  | .ok r => log ++ [⟨call.2, r⟩]
  | .error _ => log

/-- The log after a sequence of `resolve` calls on a fresh resolver. -/
def runResolver (idx : ActionIndex) (calls : List (NormalizedVote × Str)) :
    List LogEntry :=
  calls.foldl (stepResolver idx) []

/-- `getStats()` output for a non-empty log (the empty log short-circuits
to `{ total: 0 }`, modelled as `none`). The percentage fields are kept as
rationals; their `toFixed(2)` string formatting is not modelled. -/
structure ResolverStats where
  total : Nat
  resolved : Nat
  unresolved : Nat
  resolution_rate : ℚ
  exact_roll_rate : ℚ
  direct_bill_key_rate : ℚ
  n_direct_bill_key : Nat
  n_exact_roll : Nat
  n_bill_same_day : Nat
  n_motion : Nat
  n_amendment : Nat
  n_none : Nat
  missing_text_urls : Nat
deriving DecidableEq, Repr

def countStep (log : List LogEntry) (step : String) : Nat :=
  log.countP (fun e => e.result.match_step == s2l step)

def getStats (log : List LogEntry) : Option ResolverStats :=
  if log.isEmpty then none
  else
    let total := log.length
    let totalResolved := log.countP (fun e => e.result.match_step != s2l "none")
    some
      { total := total
        resolved := totalResolved
        unresolved := countStep log "none"
        resolution_rate := (totalResolved : ℚ) / (total : ℚ) * 100
        exact_roll_rate := (countStep log "exact_roll" : ℚ) / (total : ℚ) * 100
        direct_bill_key_rate := (countStep log "direct_bill_key" : ℚ) / (total : ℚ) * 100
        n_direct_bill_key := countStep log "direct_bill_key"
        n_exact_roll := countStep log "exact_roll"
        n_bill_same_day := countStep log "bill_same_day"
        n_motion := countStep log "motion"
        n_amendment := countStep log "amendment"
        n_none := countStep log "none"
        missing_text_urls := log.countP
          (fun e => e.result.match_step != s2l "none" && e.result.bill_text_urls.isEmpty) }

/-- `getUnresolved()`. -/
def getUnresolved (log : List LogEntry) : List LogEntry :=
  log.filter (fun e => e.result.match_step == s2l "none")

/-! ### Concrete index states used as test inputs -/

/-- An indexed action dated 2024-02-13 with roll 50 (day offset −2 from
2024-02-15). -/
def cexAct13 : IndexedAction :=
  ⟨s2l "118:hr:1", s2l "2024-02-13", s2l "Roll no. 50", some 50, [], some (s2l "house")⟩

/-- An indexed action dated 2024-02-16 with roll 50 (day offset +1 from
2024-02-15). -/
def cexAct16 : IndexedAction :=
  ⟨s2l "118:hr:2", s2l "2024-02-16", s2l "Roll no. 50", some 50, [], some (s2l "house")⟩

/-- A bill-status index whose roll map holds the two actions above. -/
def cexIdx : BillStatusIndex :=
  ⟨[], [],
   [(s2l "house:2024-02-13:50", cexAct13), (s2l "house:2024-02-16:50", cexAct16)],
   []⟩

/-- An `ActionIndex` with no data at all (an empty `BillStatusIndex`
exposes exactly this behavior). -/
def emptyActionIndex : ActionIndex :=
  ⟨none, fun _ _ _ _ => none, fun _ _ => [], fun _ => [], fun _ => []⟩

/-- A well-formed normalized vote (vote key, valid congress, calendar
date, string motion text) whose motion text contains an amendment
reference and an embedded bill reference with bill number 0. -/
def throwVote : NormalizedVote :=
  ⟨s2l "senate:2024-03-05:77", s2l "senate", 118, s2l "2024-03-05", 77,
   some (s2l "Amendment No. 7 to S. 0"), none, none⟩

/-- Spec-side predicate (claim C1 wording): an action is considered by the
motion step when its chamber is unknown or equals the vote chamber. -/
def specChamberOK (vchamber : Str) (a : IndexedAction) : Bool :=
  !chamberTruthy a.chamber || a.chamber == some vchamber

/-- The `compareMotions` score of an action against the vote question. -/
def motionScore (q : Option Str) (a : IndexedAction) : ℚ :=
  (compareMotions q (some a.action_text)).score

/-- Spec-side selection (claim C1 wording) for the motion-similarity step:
among the same-date actions whose chamber is unknown or equal to the vote
chamber, the first action whose score is at least 0.7 and is not exceeded
by any other considered action (the first-seen maximal score wins). -/
def specMotionPick (q : Option Str) (vchamber : Str)
    (actions : List IndexedAction) : Option IndexedAction :=
  let elig := actions.filter (specChamberOK vchamber)
  elig.find? (fun a => decide (mkRat 7 10 ≤ motionScore q a)
    && elig.all (fun b => decide (motionScore q b ≤ motionScore q a)))

/-- An action whose text matches the "On Passage" family, with unknown
chamber, used to exercise the motion strategy. -/
def motionIdxAction : IndexedAction :=
  ⟨s2l "118:s:42", s2l "2024-02-15", s2l "Passage of the measure", none, [], none⟩

/-- An index exposing only that action, on date 2024-02-15. -/
def motionIdx : ActionIndex :=
  ⟨none, fun _ _ _ _ => none, fun _ _ => [],
   fun d => if d = s2l "2024-02-15" then [motionIdxAction] else [], fun _ => []⟩

/-- A vote on 2024-02-15 whose question is "On Passage". -/
def motionVote : NormalizedVote :=
  ⟨s2l "house:2024-02-15:50", s2l "house", 118, s2l "2024-02-15", 50,
   some (s2l "On Passage"), none, none⟩

/-! ### Analysis support for `normalizeBillId`

Decidable well-formedness checks on the mapping-table keys, used to settle
the three-digit congress-suffix behavior uniformly over the table. -/

/-- The first character, if any, is not whitespace. -/
def headNotSpace : Str → Bool
  | [] => true
  | c :: _ => !isSpaceJS c

/-- Whitespace is well-spaced for `collapseWS`: every whitespace character
is a literal space and no two whitespace characters are adjacent. -/
def wsOK : Str → Bool
  | [] => true
  | c :: cs => (!isSpaceJS c || (c == ' ' && headNotSpace cs)) && wsOK cs

/-- All decidable side conditions on one mapping-table entry `(t, ty)`
needed for the congress-suffix analysis. -/
def keySideOK (t ty : Str) : Bool :=
  !t.isEmpty && isLowerAlpha (t.headD 'x') && !isSpaceJS (t.headD 'x')
  && t.all isG1Char && t.all (fun c => lowerChar c == c)
  && !isDashSpace (t.reverse.headD 'x')
  && wsOK (t ++ [' ']) && wsOK (t ++ ['-'])
  && (stdPattern t).isNone && (compactPattern t).isNone
  && (legiscanPattern t).isNone
  && (lookupMapping (trimJS (collapseWS ((t ++ [' ']).map dotToSpace))) == some ty)
  && (lookupMapping (trimJS (collapseWS (t.map dotToSpace))) == some ty)

/-! ### Lemmas about the primitives -/

theorem digitChar_isDigit {k : Nat} (h : k < 10) : (digitChar k).isDigit = true := by
  interval_cases k <;> decide

theorem digitVal_digitChar {k : Nat} (h : k < 10) : digitVal (digitChar k) = k := by
  interval_cases k <;> decide

theorem natToDecAux_irrel (n : Nat) :
    ∀ f1 f2, n < f1 → n < f2 → natToDecAux f1 n = natToDecAux f2 n := by
  induction n using Nat.strong_induction_on with
  | _ n ih =>
    intro f1 f2 h1 h2
    cases f1 with
    | zero => omega
    | succ g1 =>
      cases f2 with
      | zero => omega
      | succ g2 =>
        simp only [natToDecAux]
        by_cases h : n < 10
        · simp [h]
        · simp only [if_neg h]
          rw [ih (n / 10) (by omega) g1 g2 (by omega) (by omega)]

theorem natToDec_unfold (n : Nat) :
    natToDec n = if n < 10 then [digitChar n]
      else natToDec (n / 10) ++ [digitChar (n % 10)] := by
  show natToDecAux (n + 1) n = _
  by_cases h : n < 10
  · simp [natToDecAux, h]
  · simp only [natToDecAux, if_neg h]
    rw [natToDecAux_irrel (n / 10) n (n / 10 + 1) (by omega) (by omega)]
    rfl

theorem natToDec_ne_nil (n : Nat) : natToDec n ≠ [] := by
  rw [natToDec_unfold]
  split
  · simp
  · simp

theorem natToDec_digits (n : Nat) : ∀ c ∈ natToDec n, c.isDigit = true := by
  induction n using Nat.strong_induction_on with
  | _ n ih =>
    rw [natToDec_unfold]
    split
    · next h =>
      intro c hc
      simp only [List.mem_singleton] at hc
      subst hc
      exact digitChar_isDigit h
    · next h =>
      intro c hc
      rcases List.mem_append.mp hc with h1 | h2
      · exact ih (n / 10) (Nat.div_lt_self (by omega) (by omega)) c h1
      · simp only [List.mem_singleton] at h2
        subst h2
        exact digitChar_isDigit (Nat.mod_lt _ (by omega))

theorem takeWhile_all {p : Char → Bool} : ∀ l : Str, (∀ c ∈ l, p c = true) → l.takeWhile p = l := by
  intro l h
  induction l with
  | nil => rfl
  | cons c cs ih =>
    have hc := h c (List.mem_cons_self c cs)
    simp [List.takeWhile_cons, hc, ih (fun x hx => h x (List.mem_cons_of_mem c hx))]

theorem dropWhile_head_false {p : Char → Bool} {c : Char} {cs : Str} (h : p c = false) :
    (c :: cs).dropWhile p = c :: cs := by
  simp [List.dropWhile_cons, h]

theorem natToDec_foldl (n : Nat) :
    ∀ acc : Nat, (natToDec n).foldl (fun a c => a * 10 + digitVal c) acc
      = acc * 10 ^ (natToDec n).length + n := by
  induction n using Nat.strong_induction_on with
  | _ n ih =>
    intro acc
    rw [natToDec_unfold]
    split
    · next h =>
      simp [List.foldl, digitVal_digitChar h]
    · next h =>
      rw [List.foldl_append, List.length_append, ih (n / 10) (Nat.div_lt_self (by omega) (by omega)) acc]
      simp only [List.foldl, List.length_singleton]
      rw [digitVal_digitChar (Nat.mod_lt _ (by omega))]
      rw [pow_succ]
      have := Nat.div_add_mod n 10
      ring_nf
      omega

theorem decValue_natToDec (n : Nat) : decValue (natToDec n) = n := by
  have := natToDec_foldl n 0
  simpa [decValue] using this

theorem isDigit_not_space {c : Char} (h : c.isDigit = true) : isSpaceJS c = false := by
  revert h
  unfold Char.isDigit isSpaceJS
  intro h
  simp only [Bool.or_eq_false_iff]
  refine ⟨⟨⟨⟨⟨?_, ?_⟩, ?_⟩, ?_⟩, ?_⟩, ?_⟩ <;>
    · simp only [beq_eq_false_iff_ne, ne_eq]
      intro hc
      subst hc
      simp_all

theorem parseNatPrefix_natToDec (n : Nat) : parseNatPrefix (natToDec n) = some n := by
  unfold parseNatPrefix
  rw [takeWhile_all _ (natToDec_digits n)]
  have hne := natToDec_ne_nil n
  simp only [List.isEmpty_iff]
  rw [if_neg hne]
  rw [decValue_natToDec]

theorem parseIntJS_natToDec (n : Nat) : parseIntJS (natToDec n) = some (n : Int) := by
  unfold parseIntJS
  have hne := natToDec_ne_nil n
  obtain ⟨c, cs, hcons⟩ := List.exists_cons_of_ne_nil hne
  have hdig : c.isDigit = true := natToDec_digits n c (by rw [hcons]; exact List.mem_cons_self c cs)
  have hdrop : (natToDec n).dropWhile isSpaceJS = natToDec n := by
    rw [hcons]; exact dropWhile_head_false (isDigit_not_space hdig)
  rw [hdrop, hcons]
  have hcne : c ≠ '-' := by intro hc; subst hc; simp [Char.isDigit] at hdig
  have hcne2 : c ≠ '+' := by intro hc; subst hc; simp [Char.isDigit] at hdig
  have : parseNatPrefix (c :: cs) = some n := by rw [← hcons]; exact parseNatPrefix_natToDec n
  cases c <;> simp_all <;> rw [← hcons] <;> rw [parseNatPrefix_natToDec]

theorem splitChar_ne_nil (sep : Char) (l : Str) : splitChar sep l ≠ [] := by
  induction l with
  | nil => simp [splitChar]
  | cons c cs ih =>
    simp only [splitChar]
    split
    · simp
    · cases h : splitChar sep cs with
      | nil => simp
      | cons p ps => simp

theorem splitChar_no_sep (sep : Char) : ∀ l : Str, sep ∉ l → splitChar sep l = [l] := by
  intro l
  induction l with
  | nil => intro _; rfl
  | cons c cs ih =>
    intro h
    have hc : c ≠ sep := fun hc => h (hc ▸ List.mem_cons_self c cs)
    have hcs : sep ∉ cs := fun hm => h (List.mem_cons_of_mem c hm)
    simp only [splitChar, if_neg hc, ih hcs]

theorem splitChar_append (sep : Char) :
    ∀ a r : Str, sep ∉ a → splitChar sep (a ++ sep :: r) = a :: splitChar sep r := by
  intro a
  induction a with
  | nil =>
    intro r _
    simp [splitChar]
  | cons c cs ih =>
    intro r h
    have hc : c ≠ sep := fun hc => h (hc ▸ List.mem_cons_self c cs)
    have hcs : sep ∉ cs := fun hm => h (List.mem_cons_of_mem c hm)
    simp only [List.cons_append, splitChar, if_neg hc]
    rw [List.append_eq, ih r hcs]

theorem isDigit_ne_colon {c : Char} (h : c.isDigit = true) : c ≠ ':' := by
  intro heq
  subst heq
  exact absurd h (by decide)

theorem isDigit_ne_dash {c : Char} (h : c.isDigit = true) : c ≠ '-' := by
  intro heq
  subst heq
  exact absurd h (by decide)

theorem padNat_digits (k n : Nat) : ∀ c ∈ padNat k n, c.isDigit = true := by
  intro c hc
  unfold padNat padZeros at hc
  rcases List.mem_append.mp hc with h1 | h2
  · have := List.eq_of_mem_replicate h1
    subst this
    decide
  · exact natToDec_digits n c h2

theorem natToDec_no_colon (n : Nat) : ':' ∉ natToDec n := by
  intro h
  exact isDigit_ne_colon (natToDec_digits n ':' h) rfl

theorem isoOfDate_no_colon (d : CalDate) : ':' ∉ isoOfDate d := by
  intro h
  unfold isoOfDate at h
  rcases List.mem_append.mp h with h1 | h2
  · exact isDigit_ne_colon (padNat_digits 4 d.year ':' h1) rfl
  · rcases List.mem_cons.mp h2 with h3 | h4
    · exact absurd h3 (by decide)
    · rcases List.mem_append.mp h4 with h5 | h6
      · exact isDigit_ne_colon (padNat_digits 2 d.month ':' h5) rfl
      · rcases List.mem_cons.mp h6 with h7 | h8
        · exact absurd h7 (by decide)
        · exact isDigit_ne_colon (padNat_digits 2 d.day ':' h8) rfl

theorem intToDec_nonneg {i : Int} (h : 0 ≤ i) : intToDec i = natToDec i.toNat := by
  unfold intToDec
  rw [if_neg (by omega)]

theorem intToDec_no_colon {i : Int} (h : 0 ≤ i) : ':' ∉ intToDec i := by
  rw [intToDec_nonneg h]
  exact natToDec_no_colon i.toNat

theorem parseIntJS_intToDec {i : Int} (h : 0 ≤ i) : parseIntJS (intToDec i) = some i := by
  rw [intToDec_nonneg h, parseIntJS_natToDec, Int.toNat_of_nonneg h]

theorem splitChar_three (a b c : Str) (ha : ':' ∉ a) (hb : ':' ∉ b) (hc : ':' ∉ c) :
    splitChar ':' (a ++ ':' :: (b ++ ':' :: c)) = [a, b, c] := by
  rw [splitChar_append ':' a _ ha, splitChar_append ':' b _ hb, splitChar_no_sep ':' c hc]

/-- Claim C3: `parseVoteKey(makeVoteKey(chamber, date, roll))` returns the
normalized triple (lower-cased chamber, ISO calendar date, integer roll
number) for all valid inputs, and
`parseBillKey(makeBillKey(congress, type, number))` returns the normalized
triple (integer congress, normalized bill type, integer bill number). -/
theorem C3_key_roundtrips :
    (∀ (chamber : Str) (d : CalDate) (roll : JSVal) (r : Int),
      (jsToLower chamber = s2l "house" ∨ jsToLower chamber = s2l "senate") →
      validCalDate d = true →
      parseIntVal roll = some r → 1 ≤ r →
      ∃ k, makeVoteKey chamber (some d) roll = .ok k ∧
        parseVoteKey k = .ok ⟨jsToLower chamber, isoOfDate d, some r⟩)
    ∧
    (∀ (c n : Int) (billType : Str),
      1 ≤ c → 1 ≤ n → normalizeBillType billType ∈ VALID_BILL_TYPES →
      ∃ k, makeBillKey (.num c) billType (.num n) = .ok k ∧
        parseBillKey k = .ok ⟨some c, normalizeBillType billType, some n⟩) := by
  constructor
  · intro chamber d roll r hch hd hroll hr
    refine ⟨jsToLower chamber ++ ':' :: (isoOfDate d ++ ':' :: intToDec r), ?_, ?_⟩
    · unfold makeVoteKey
      rw [hroll]
      simp only [if_neg (by omega : ¬ r < 1)]
    · have hch_nc : ':' ∉ jsToLower chamber := by
        rcases hch with h | h <;> rw [h] <;> decide
      have hsplit := splitChar_three (jsToLower chamber) (isoOfDate d) (intToDec r)
        hch_nc (isoOfDate_no_colon d) (intToDec_no_colon (show (0:ℤ) ≤ r by omega))
      simp only [parseVoteKey, hsplit, parseIntJS_intToDec (show (0:ℤ) ≤ r by omega)]
  · intro c n billType hc hn hty
    refine ⟨intToDec c ++ ':' :: (normalizeBillType billType ++ ':' :: intToDec n), ?_, ?_⟩
    · unfold makeBillKey
      simp only [parseIntVal, if_neg (by omega : ¬ c < 1), if_neg (by omega : ¬ n < 1)]
      rw [if_pos hty]
    · have hty_nc : ':' ∉ normalizeBillType billType := by
        simp only [VALID_BILL_TYPES, List.mem_cons, List.not_mem_nil, or_false] at hty
        rcases hty with h | h | h | h | h | h | h | h <;> rw [h] <;> decide
      have hsplit := splitChar_three (intToDec c) (normalizeBillType billType) (intToDec n)
        (intToDec_no_colon (show (0:ℤ) ≤ c by omega)) hty_nc
        (intToDec_no_colon (show (0:ℤ) ≤ n by omega))
      simp only [parseBillKey, hsplit, parseIntJS_intToDec (show (0:ℤ) ≤ c by omega),
        parseIntJS_intToDec (show (0:ℤ) ≤ n by omega)]

/-- Witness for C3 at concrete inputs. -/
theorem C3_key_roundtrips_witness :
    (∃ k, makeVoteKey (s2l "House") (some ⟨2024, 2, 15⟩) (.num 50) = .ok k ∧
      parseVoteKey k = .ok ⟨jsToLower (s2l "House"), isoOfDate ⟨2024, 2, 15⟩, some 50⟩)
    ∧
    (∃ k, makeBillKey (.num 118) (s2l "H.R.") (.num 2766) = .ok k ∧
      parseBillKey k = .ok ⟨some 118, normalizeBillType (s2l "H.R."), some 2766⟩) :=
  ⟨C3_key_roundtrips.1 (s2l "House") ⟨2024, 2, 15⟩ (.num 50) 50 (Or.inl (by decide))
      (by decide) (by decide) (by decide),
   C3_key_roundtrips.2 118 2766 (s2l "H.R.") (by decide) (by decide) (by decide)⟩

/-- Claim C8: `makeVoteKey` fails exactly when the date is unparsable or
the roll number is non-numeric or non-positive; `makeBillKey` fails
exactly for a non-positive congress, a non-positive bill number, or a
normalized bill type outside the fixed eight-value enumeration. -/
theorem C8_key_contracts :
    (∀ (chamber : Str) (date : Option CalDate) (roll : JSVal),
      (∃ e, makeVoteKey chamber date roll = .error e) ↔
        (date = none ∨ parseIntVal roll = none ∨
          ∃ r, parseIntVal roll = some r ∧ r < 1))
    ∧
    (∀ (c n : Int) (billType : Str),
      (∃ e, makeBillKey (.num c) billType (.num n) = .error e) ↔
        (c < 1 ∨ n < 1 ∨ normalizeBillType billType ∉ VALID_BILL_TYPES)) := by
  constructor
  · intro chamber date roll
    unfold makeVoteKey
    cases date with
    | none => simp
    | some d =>
      cases hp : parseIntVal roll with
      | none => simp
      | some r =>
        by_cases hr : r < 1
        · simp only [if_pos hr]
          constructor
          · intro _
            exact Or.inr (Or.inr ⟨r, rfl, hr⟩)
          · intro _
            exact ⟨_, rfl⟩
        · simp only [if_neg hr]
          constructor
          · rintro ⟨e, he⟩
            exact absurd he (by simp)
          · rintro (h | h | ⟨r', hr', hlt⟩)
            · exact absurd h (by simp)
            · exact absurd h (by simp)
            · rw [Option.some_inj] at hr'
              omega
  · intro c n billType
    unfold makeBillKey
    simp only [parseIntVal]
    by_cases hc : c < 1
    · simp only [if_pos hc]
      constructor
      · intro _
        exact Or.inl hc
      · intro _
        exact ⟨_, rfl⟩
    · simp only [if_neg hc]
      by_cases hty : normalizeBillType billType ∈ VALID_BILL_TYPES
      · simp only [if_pos hty]
        by_cases hn : n < 1
        · simp only [if_pos hn]
          constructor
          · intro _
            exact Or.inr (Or.inl hn)
          · intro _
            exact ⟨_, rfl⟩
        · simp only [if_neg hn]
          constructor
          · rintro ⟨e, he⟩
            exact absurd he (by simp)
          · rintro (h | h | h)
            · omega
            · omega
            · exact absurd hty h
      · simp only [if_neg hty]
        constructor
        · intro _
          exact Or.inr (Or.inr hty)
        · intro _
          exact ⟨_, rfl⟩

/-- Claim C5: `normalizeBillId` maps the documented raw-format variants to
the canonical `{type}{number}-{congress}` identifier; in particular
`"H R 2766"` with congress 118 gives canonical `"hr2766-118"` and `"HB82"`
with congress 119 gives `"hr82-119"`, and all documented variants of one
bill type (spaced, punctuated, compact, legacy two-letter) map to the same
canonical type. -/
theorem C5_normalizeBillId_variants :
    (normalizeBillId (some (s2l "H R 2766")) (some 118)
      = some ⟨s2l "hr2766-118", s2l "hr", 2766, some 118⟩)
    ∧ (normalizeBillId (some (s2l "HB82")) (some 119)
      = some ⟨s2l "hr82-119", s2l "hr", 82, some 119⟩)
    ∧ (normalizeBillId (some (s2l "H.R. 1234")) (some 119)
      = some ⟨s2l "hr1234-119", s2l "hr", 1234, some 119⟩)
    ∧ (normalizeBillId (some (s2l "hr2766-118")) none
      = some ⟨s2l "hr2766-118", s2l "hr", 2766, some 118⟩)
    ∧ (∀ p ∈ BILL_TYPE_MAPPINGS,
        (normalizeBillId (some (p.1 ++ ' ' :: s2l "2766")) (some 118)).map
          (fun b => b.type) = some p.2)
    ∧ (∀ k ∈ [s2l "hr", s2l "h.r.", s2l "h.r", s2l "h r", s2l "hb", s2l "house bill"],
        lookupMapping k = some (s2l "hr")) := by
  refine ⟨by decide, by decide, by decide, by decide, by decide, by decide⟩

theorem findSome?_of_first {α β : Type} (f : α → Option β) :
    ∀ (l : List α) (i : Nat) (h : i < l.length),
      (f (l.get ⟨i, h⟩)).isSome = true →
      (∀ j, (hj : j < i) → f (l.get ⟨j, by omega⟩) = none) →
      l.findSome? f = f (l.get ⟨i, h⟩) := by
  intro l
  induction l with
  | nil =>
    intro i h
    simp at h
  | cons a as ih =>
    intro i h hs hprev
    cases i with
    | zero =>
      cases hf : f a with
      | none => simp [hf] at hs
      | some b => simp [List.findSome?_cons, hf]
    | succ i' =>
      have ha : f a = none := hprev 0 (by omega)
      rw [List.findSome?_cons, ha]
      exact ih i' (by simpa using h) hs (fun j hj => hprev (j + 1) (by omega))

/-- Claim C6: `canonicalizeMotion` tries each family's patterns in table
order, the first matching family winning with confidence high; with no
match it returns the simplified trimmed text with confidence medium;
empty or missing input yields family null with confidence low; and the
motion "On Motion to Suspend the Rules and Pass H.R. 2766, as Amended"
canonicalizes to family "Suspend the Rules" with confidence high. -/
theorem C6_canonicalizeMotion_table :
    (canonicalizeMotion none = ⟨none, s2l "low"⟩)
    ∧ (canonicalizeMotion (some []) = ⟨none, s2l "low"⟩)
    ∧ (∀ t : Str, t ≠ [] →
        (∀ (i : Nat) (h : i < MOTION_FAMILIES.length),
          ((MOTION_FAMILIES.get ⟨i, h⟩).2.any
            (fun p => testMotionPattern p (trimJS t))) = true →
          (∀ j, (hj : j < i) →
            ((MOTION_FAMILIES.get ⟨j, by omega⟩).2.any
              (fun p => testMotionPattern p (trimJS t))) = false) →
          canonicalizeMotion (some t)
            = ⟨some (MOTION_FAMILIES.get ⟨i, h⟩).1, s2l "high"⟩)
        ∧ ((∀ f ∈ MOTION_FAMILIES,
            (f.2.any (fun p => testMotionPattern p (trimJS t))) = false) →
          canonicalizeMotion (some t)
            = ⟨some (simplifyMotionText (trimJS t)), s2l "medium"⟩))
    ∧ (canonicalizeMotion
        (some (s2l "On Motion to Suspend the Rules and Pass H.R. 2766, as Amended"))
        = ⟨some (s2l "Suspend the Rules"), s2l "high"⟩) := by
  refine ⟨by decide, by decide, ?_, by decide⟩
  intro t ht
  have hfalsy : jsFalsyStr (some t) = false := by
    simp [jsFalsyStr, List.isEmpty_iff, ht]
  constructor
  · intro i h hi hprev
    unfold canonicalizeMotion
    rw [hfalsy]
    simp only [Bool.false_eq_true, if_false, Option.getD_some]
    rw [findSome?_of_first _ MOTION_FAMILIES i h (by simpa using hi)
      (fun j hj => by simpa using hprev j hj)]
    rw [if_pos hi]
  · intro hall
    unfold canonicalizeMotion
    rw [hfalsy]
    simp only [Bool.false_eq_true, if_false, Option.getD_some]
    rw [List.findSome?_eq_none_iff.mpr (fun f hf => by simp [hall f hf])]

/-- Witness for C6 at concrete inputs: a first-family match and a
no-match fallback. -/
theorem C6_canonicalizeMotion_table_witness :
    (canonicalizeMotion (some (s2l "On Passage of the bill"))
      = ⟨some (s2l "On Passage"), s2l "high"⟩)
    ∧ (canonicalizeMotion (some (s2l "zzz qqq"))
      = ⟨some (s2l "zzz qqq"), s2l "medium"⟩) :=
  ⟨(C6_canonicalizeMotion_table.2.2.1 (s2l "On Passage of the bill") (by decide)).1
      0 (by decide) (by decide) (fun j hj => absurd hj (by omega)),
    (C6_canonicalizeMotion_table.2.2.1 (s2l "zzz qqq") (by decide)).2 (by decide)⟩

/-- Canonical if-then-else form of `compareMotions` (its let-bound branch
structure, spelled out). -/
theorem compareMotions_form : ∀ x y : Str, compareMotions (some x) (some y) =
    if (famTruthy (canonicalizeMotion (some x)).family = true
        ∧ famTruthy (canonicalizeMotion (some y)).family = true)
        ∧ (canonicalizeMotion (some x)).family = (canonicalizeMotion (some y)).family
    then ⟨true, 1⟩
    else if jsToLower (simplifyMotionText x) = jsToLower (simplifyMotionText y)
    then ⟨true, mkRat 9 10⟩
    else if containsSub (jsToLower (simplifyMotionText y))
            (jsToLower (simplifyMotionText x)) = true
          ∨ containsSub (jsToLower (simplifyMotionText x))
            (jsToLower (simplifyMotionText y)) = true
    then ⟨true, mkRat 7 10⟩
    else ⟨false, 0⟩ := by
  intro x y
  unfold compareMotions
  simp only [Option.getD_some, Bool.and_eq_true, beq_iff_eq, Bool.or_eq_true]

/-- The score of `compareMotions` is one of the four fixed values, and a
score of at least 0.7 forces the match flag. -/
theorem compareMotions_cases (x y : Str) :
    (compareMotions (some x) (some y) = ⟨true, 1⟩
      ∨ compareMotions (some x) (some y) = ⟨true, mkRat 9 10⟩
      ∨ compareMotions (some x) (some y) = ⟨true, mkRat 7 10⟩
      ∨ compareMotions (some x) (some y) = ⟨false, 0⟩)
    ∧ (mkRat 7 10 ≤ (compareMotions (some x) (some y)).score →
        (compareMotions (some x) (some y)).isMatch = true) := by
  constructor
  · rw [compareMotions_form x y]
    split
    · exact Or.inl rfl
    · split
      · exact Or.inr (Or.inl rfl)
      · split
        · exact Or.inr (Or.inr (Or.inl rfl))
        · exact Or.inr (Or.inr (Or.inr rfl))
  · rw [compareMotions_form x y]
    split
    · intro _
      rfl
    · split
      · intro _
        rfl
      · split
        · intro _
          rfl
        · intro h
          exact absurd h (by decide)

/-- Claim C7: `compareMotions` is symmetric in both its match decision and
its score, and the score is always one of 1.0, 0.9, 0.7, 0.0. -/
theorem C7_compareMotions_symmetric (a b : Str) :
    compareMotions (some a) (some b) = compareMotions (some b) (some a)
    ∧ ((compareMotions (some a) (some b)).score = 1
      ∨ (compareMotions (some a) (some b)).score = mkRat 9 10
      ∨ (compareMotions (some a) (some b)).score = mkRat 7 10
      ∨ (compareMotions (some a) (some b)).score = 0) := by
  have key := compareMotions_form
  constructor
  · rw [key a b, key b a]
    by_cases c1 : (famTruthy (canonicalizeMotion (some a)).family = true
        ∧ famTruthy (canonicalizeMotion (some b)).family = true)
        ∧ (canonicalizeMotion (some a)).family = (canonicalizeMotion (some b)).family
    · rw [if_pos c1, if_pos ⟨⟨c1.1.2, c1.1.1⟩, c1.2.symm⟩]
    · have c1' : ¬((famTruthy (canonicalizeMotion (some b)).family = true
          ∧ famTruthy (canonicalizeMotion (some a)).family = true)
          ∧ (canonicalizeMotion (some b)).family = (canonicalizeMotion (some a)).family) :=
        fun h => c1 ⟨⟨h.1.2, h.1.1⟩, h.2.symm⟩
      rw [if_neg c1, if_neg c1']
      by_cases c2 : jsToLower (simplifyMotionText a) = jsToLower (simplifyMotionText b)
      · rw [if_pos c2, if_pos c2.symm]
      · have c2' : ¬(jsToLower (simplifyMotionText b) = jsToLower (simplifyMotionText a)) :=
          fun h => c2 h.symm
        rw [if_neg c2, if_neg c2']
        by_cases c3 : containsSub (jsToLower (simplifyMotionText b))
              (jsToLower (simplifyMotionText a)) = true
            ∨ containsSub (jsToLower (simplifyMotionText a))
              (jsToLower (simplifyMotionText b)) = true
        · rw [if_pos c3, if_pos c3.symm]
        · have c3' : ¬(containsSub (jsToLower (simplifyMotionText a))
              (jsToLower (simplifyMotionText b)) = true
            ∨ containsSub (jsToLower (simplifyMotionText b))
              (jsToLower (simplifyMotionText a)) = true) := fun h => c3 h.symm
          rw [if_neg c3, if_neg c3']
  · rw [key a b]
    split
    · simp
    · split
      · simp
      · split
        · simp
        · simp

/-- Claim C4 counterexample: with `windowDays = 2` and matching roll
entries at day offsets −2 and +1, `findByExactRoll` returns the offset −2
entry, although the offset +1 entry has the smaller absolute offset (the
claim says the smallest absolute day offset wins). -/
theorem C4_counterexample :
    findByExactRoll cexIdx (s2l "house") (s2l "2024-02-15") 50 2 = some cexAct13
    ∧ mapGet cexIdx.actionsByRoll
        (rollMapKey (s2l "house") (isoOfDate (addDays ⟨2024, 2, 15⟩ 1)) 50) = some cexAct16
    ∧ mapGet cexIdx.actionsByRoll
        (rollMapKey (s2l "house") (s2l "2024-02-15") 50) = none
    ∧ parseISODate (s2l "2024-02-15") = some ⟨2024, 2, 15⟩
    ∧ cexAct13.action_date = s2l "2024-02-13"
    ∧ isoOfDate (addDays ⟨2024, 2, 15⟩ (-2)) = s2l "2024-02-13"
    ∧ cexAct13 ≠ cexAct16 := by
  refine ⟨by decide, by decide, by decide, by decide, by decide, by decide, by decide⟩

theorem findSome?_sorted_char {β : Type} (f : Int → Option β) (b : β) :
    ∀ l : List Int, l.Pairwise (· < ·) →
      (l.findSome? f = some b ↔
        ∃ o ∈ l, f o = some b ∧ ∀ o' ∈ l, o' < o → f o' = none) := by
  intro l
  induction l with
  | nil => simp
  | cons a as ih =>
    intro hp
    have hp' : as.Pairwise (· < ·) := (List.pairwise_cons.mp hp).2
    have hlt : ∀ o ∈ as, a < o := (List.pairwise_cons.mp hp).1
    cases hfa : f a with
    | some x =>
      rw [List.findSome?_cons_of_isSome _ (by simp [hfa])]
      rw [hfa]
      constructor
      · intro hx
        refine ⟨a, List.mem_cons_self a as, by rw [hfa]; exact hx, ?_⟩
        intro o' ho' hlt'
        rcases List.mem_cons.mp ho' with h | h
        · omega
        · exact absurd hlt' (by have := hlt o' h; omega)
      · rintro ⟨o, ho, hfo, hprev⟩
        rcases List.mem_cons.mp ho with h | h
        · subst h
          rw [hfa] at hfo
          exact hfo
        · have : f a = none := hprev a (List.mem_cons_self a as) (hlt o h)
          rw [hfa] at this
          exact absurd this (by simp)
    | none =>
      rw [List.findSome?_cons_of_isNone _ (by simp [hfa])]
      rw [ih hp']
      constructor
      · rintro ⟨o, ho, hfo, hprev⟩
        refine ⟨o, List.mem_cons_of_mem a ho, hfo, ?_⟩
        intro o' ho' hlt'
        rcases List.mem_cons.mp ho' with h | h
        · subst h
          exact hfa
        · exact hprev o' h hlt'
      · rintro ⟨o, ho, hfo, hprev⟩
        rcases List.mem_cons.mp ho with h | h
        · subst h
          rw [hfa] at hfo
          exact absurd hfo (by simp)
        · exact ⟨o, h, hfo, fun o' ho' hlt' => hprev o' (List.mem_cons_of_mem a ho') hlt'⟩

theorem windowOffsets_sorted (w : Int) : (windowOffsets w).Pairwise (· < ·) := by
  unfold windowOffsets
  split
  · exact List.Pairwise.nil
  · exact List.Pairwise.map (fun i : Nat => (i : Int) - w)
      (fun a b hab => sub_lt_sub_right (by exact_mod_cast hab) w)
      (List.pairwise_lt_range (2 * w.toNat + 1))

/-- Claim C4, amended: `findByExactRoll` first tries the exact
chamber:date:roll key; on a miss it scans the offsets from `-windowDays`
to `+windowDays` in ascending order (0 skipped, having been tried), and
the first offset in that order with a matching entry wins — not the
smallest absolute offset; it returns null when no date in the window has
a matching entry (or the date cannot be parsed). -/
theorem C4_findByExactRoll_amended (idx : BillStatusIndex) (chamber date : Str)
    (roll w : Int) :
    (∀ a, mapGet idx.actionsByRoll (rollMapKey chamber date roll) = some a →
      findByExactRoll idx chamber date roll w = some a)
    ∧ (mapGet idx.actionsByRoll (rollMapKey chamber date roll) = none →
        parseISODate date = none → findByExactRoll idx chamber date roll w = none)
    ∧ (∀ d, mapGet idx.actionsByRoll (rollMapKey chamber date roll) = none →
        parseISODate date = some d →
        (∀ a, (findByExactRoll idx chamber date roll w = some a ↔
          ∃ o ∈ windowOffsets w, o ≠ 0
            ∧ mapGet idx.actionsByRoll
                (rollMapKey chamber (isoOfDate (addDays d o)) roll) = some a
            ∧ ∀ o' ∈ windowOffsets w, o' < o → o' ≠ 0 →
                mapGet idx.actionsByRoll
                  (rollMapKey chamber (isoOfDate (addDays d o')) roll) = none))
        ∧ (findByExactRoll idx chamber date roll w = none ↔
            ∀ o ∈ windowOffsets w, o ≠ 0 →
              mapGet idx.actionsByRoll
                (rollMapKey chamber (isoOfDate (addDays d o)) roll) = none)) := by
  unfold findByExactRoll
  refine ⟨?_, ?_, ?_⟩
  · intro a ha
    simp only [ha]
  · intro h1 h2
    simp only [h1, h2]
  · intro d h1 h2
    simp only [h1, h2]
    constructor
    · intro a
      rw [findSome?_sorted_char _ a _ (windowOffsets_sorted w)]
      constructor
      · rintro ⟨o, ho, hfo, hprev⟩
        by_cases ho0 : o = 0
        · subst ho0
          simp at hfo
        · rw [if_neg ho0] at hfo
          refine ⟨o, ho, ho0, hfo, ?_⟩
          intro o' ho' hlt hne
          have := hprev o' ho' hlt
          rw [if_neg hne] at this
          exact this
      · rintro ⟨o, ho, ho0, hm, hprev⟩
        refine ⟨o, ho, by rw [if_neg ho0]; exact hm, ?_⟩
        intro o' ho' hlt
        by_cases h0 : o' = 0
        · rw [if_pos h0]
        · rw [if_neg h0]
          exact hprev o' ho' hlt h0
    · rw [List.findSome?_eq_none_iff]
      constructor
      · intro hall o ho ho0
        have := hall o ho
        rw [if_neg ho0] at this
        exact this
      · intro hall o ho
        by_cases h0 : o = 0
        · rw [if_pos h0]
        · rw [if_neg h0]
          exact hall o ho h0

/-- Witness for the amended C4 at the concrete two-entry index: the
ascending scan characterization produces the offset −2 entry. -/
theorem C4_findByExactRoll_amended_witness :
    findByExactRoll cexIdx (s2l "house") (s2l "2024-02-15") 50 2 = some cexAct13 :=
  (((C4_findByExactRoll_amended cexIdx (s2l "house") (s2l "2024-02-15") 50 2).2.2
      ⟨2024, 2, 15⟩ (by decide) (by decide)).1 cexAct13).mpr
    ⟨-2, by decide, by decide, by decide, by decide⟩

/-- Claim C2 (code bug): the claim says `resolve` never raises for a
well-formed Normalized Vote, but on a vote whose motion text is
"Amendment No. 7 to S. 0" (with an empty index, valid congress 118, a
calendar date and a vote key) step 4 extracts bill reference `s 0` and
`makeBillKey` throws `Invalid bill number: 0`, so `resolve` raises
instead of returning a Resolution Result. -/
theorem C2_resolve_raises_on_failing_input :
    resolve emptyActionIndex throwVote = .error (s2l "Invalid bill number: 0")
    ∧ throwVote.congress = 118
    ∧ parseISODate throwVote.vote_date = some ⟨2024, 3, 5⟩
    ∧ throwVote.question = some (s2l "Amendment No. 7 to S. 0")
    ∧ extractAmendment throwVote.question = some ⟨s2l "amendment", s2l "7"⟩
    ∧ extractBillReference throwVote.question = some ⟨s2l "s", 0⟩ := by
  refine ⟨by rfl, by decide, by decide, by decide, by decide, by decide⟩

def STEP_NAMES : List Str :=
  [s2l "direct_bill_key", s2l "exact_roll", s2l "bill_same_day", s2l "motion",
   s2l "amendment", s2l "none"]

theorem resolve_ok_step_mem {idx : ActionIndex} {v : NormalizedVote}
    {r : ResolutionResult} (h : resolve idx v = .ok r) :
    r.match_step ∈ STEP_NAMES := by
  unfold resolve at h
  split at h
  · cases h
    simp [STEP_NAMES]
  · split at h
    · cases h
      simp [STEP_NAMES]
    · split at h
      · cases h
        simp [STEP_NAMES]
      · split at h
        · cases h
          simp [STEP_NAMES]
        · split at h
          · exact absurd h (by simp)
          · cases h
            simp [STEP_NAMES]
          · cases h
            simp [STEP_NAMES]

theorem countStep_cons (e : LogEntry) (l : List LogEntry) (s : String) :
    countStep (e :: l) s = countStep l s
      + (if e.result.match_step = s2l s then 1 else 0) := by
  simp [countStep, List.countP_cons, beq_iff_eq]

theorem step_one_hot (s : Str) (h : s ∈ STEP_NAMES) :
    ((if s = s2l "direct_bill_key" then 1 else 0) + (if s = s2l "exact_roll" then 1 else 0)
      + (if s = s2l "bill_same_day" then 1 else 0) + (if s = s2l "motion" then 1 else 0)
      + (if s = s2l "amendment" then 1 else 0) + (if s = s2l "none" then 1 else 0) : Nat)
      = 1 := by
  simp only [STEP_NAMES, List.mem_cons, List.not_mem_nil, or_false] at h
  rcases h with h | h | h | h | h | h <;> subst h <;> decide

theorem counts_sum (log : List LogEntry)
    (h : ∀ e ∈ log, e.result.match_step ∈ STEP_NAMES) :
    countStep log "direct_bill_key" + countStep log "exact_roll"
      + countStep log "bill_same_day" + countStep log "motion"
      + countStep log "amendment" + countStep log "none" = log.length := by
  induction log with
  | nil => rfl
  | cons e l ih =>
    have he := h e (List.mem_cons_self e l)
    have ihl := ih (fun x hx => h x (List.mem_cons_of_mem e hx))
    have hone := step_one_hot e.result.match_step he
    rw [countStep_cons, countStep_cons, countStep_cons, countStep_cons,
      countStep_cons, countStep_cons, List.length_cons]
    omega

theorem countP_resolved (log : List LogEntry) :
    log.countP (fun e => e.result.match_step != s2l "none")
      = log.length - log.countP (fun e => e.result.match_step == s2l "none") := by
  induction log with
  | nil => rfl
  | cons e l ih =>
    have hle : l.countP (fun e => e.result.match_step == s2l "none") ≤ l.length :=
      List.countP_le_length _
    by_cases h : e.result.match_step = s2l "none"
    · simp [List.countP_cons, h, ih]
    · simp only [List.countP_cons, List.length_cons]
      simp only [bne_iff_ne, ne_eq, beq_iff_eq, h]
      simp only [not_false_eq_true, if_true, if_false]
      omega

theorem runResolver_mem (idx : ActionIndex) :
    ∀ (calls : List (NormalizedVote × Str)) (log0 : List LogEntry),
      (∀ e ∈ log0, e.result.match_step ∈ STEP_NAMES) →
      ∀ e ∈ List.foldl (stepResolver idx) log0 calls,
        e.result.match_step ∈ STEP_NAMES := by
  intro calls
  induction calls with
  | nil =>
    intro log0 h0 e he
    exact h0 e he
  | cons c cs ih =>
    intro log0 h0 e he
    refine ih (stepResolver idx log0 c) ?_ e he
    intro x hx
    unfold stepResolver at hx
    split at hx
    · next r hr =>
      rcases List.mem_append.mp hx with h | h
      · exact h0 x h
      · simp only [List.mem_singleton] at h
        subst h
        exact resolve_ok_step_mem hr
    · exact h0 x hx

/-- Claim C9: each normally-returning `resolve` call appends exactly one
record to the log, leaving existing records unchanged; for every reachable
log, the per-strategy counts of `getStats` sum to the total number of
logged resolutions, and the resolved count is the total minus the count of
strategy "none". -/
theorem C9_log_and_stats_invariant (idx : ActionIndex) :
    (∀ (log : List LogEntry) (v : NormalizedVote) (ts : Str) (r : ResolutionResult),
      resolve idx v = .ok r → stepResolver idx log (v, ts) = log ++ [⟨ts, r⟩])
    ∧ (∀ (calls : List (NormalizedVote × Str)) (s : ResolverStats),
        getStats (runResolver idx calls) = some s →
        s.n_direct_bill_key + s.n_exact_roll + s.n_bill_same_day + s.n_motion
            + s.n_amendment + s.n_none = s.total
        ∧ s.resolved = s.total - s.n_none) := by
  constructor
  · intro log v ts r hr
    unfold stepResolver
    rw [hr]
  · intro calls s hs
    have hmem : ∀ e ∈ runResolver idx calls, e.result.match_step ∈ STEP_NAMES :=
      runResolver_mem idx calls [] (by simp)
    unfold getStats at hs
    split at hs
    · exact absurd hs (by simp)
    · rw [Option.some_inj] at hs
      subst hs
      refine ⟨counts_sum (runResolver idx calls) hmem, ?_⟩
      exact countP_resolved (runResolver idx calls)

/-- Witness for C9: one call on the empty index appends one "none" record,
and the stats equations hold on the resulting one-entry log. -/
theorem C9_log_and_stats_invariant_witness :
    (∃ r, resolve emptyActionIndex
        ⟨s2l "house:2024-02-15:50", s2l "house", 118, s2l "2024-02-15", 50,
          none, none, none⟩ = .ok r
      ∧ stepResolver emptyActionIndex []
          (⟨s2l "house:2024-02-15:50", s2l "house", 118, s2l "2024-02-15", 50,
            none, none, none⟩, s2l "t0") = [] ++ [⟨s2l "t0", r⟩])
    ∧ (∃ s, getStats (runResolver emptyActionIndex
        [(⟨s2l "house:2024-02-15:50", s2l "house", 118, s2l "2024-02-15", 50,
          none, none, none⟩, s2l "t0")]) = some s
      ∧ s.n_direct_bill_key + s.n_exact_roll + s.n_bill_same_day + s.n_motion
          + s.n_amendment + s.n_none = s.total
      ∧ s.resolved = s.total - s.n_none) :=
  ⟨⟨_, rfl, (C9_log_and_stats_invariant emptyActionIndex).1 [] _ (s2l "t0") _ rfl⟩,
   ⟨_, rfl, (C9_log_and_stats_invariant emptyActionIndex).2
      [(⟨s2l "house:2024-02-15:50", s2l "house", 118, s2l "2024-02-15", 50,
        none, none, none⟩, s2l "t0")] _ rfl⟩⟩

theorem compareMotions_match_of_score (m1 m2 : Option Str)
    (h : mkRat 7 10 ≤ (compareMotions m1 m2).score) :
    (compareMotions m1 m2).isMatch = true := by
  revert h
  simp only [compareMotions]
  split
  · intro _
    rfl
  · split
    · intro _
      rfl
    · split
      · intro _
        rfl
      · intro h
        exact absurd h (by decide)

theorem find?_congr_mem {α : Type} (p q : α → Bool) :
    ∀ L : List α, (∀ x ∈ L, p x = q x) → L.find? p = L.find? q := by
  intro L
  induction L with
  | nil => intro _; rfl
  | cons a l ih =>
    intro h
    have ha := h a (List.mem_cons_self a l)
    rw [List.find?_cons, List.find?_cons, ha]
    cases hqa : q a with
    | true => rfl
    | false => exact ih (fun x hx => h x (List.mem_cons_of_mem a hx))

theorem exists_max_sc {α : Type} (f : α → ℚ) :
    ∀ L : List α, L ≠ [] → ∃ m ∈ L, ∀ b ∈ L, f b ≤ f m := by
  intro L
  induction L with
  | nil => intro h; exact absurd rfl h
  | cons a rest ih =>
    intro _
    cases rest with
    | nil =>
      refine ⟨a, List.mem_cons_self a [], ?_⟩
      intro b hb
      rcases List.mem_cons.mp hb with h | h
      · subst h; exact le_refl _
      · exact absurd h (List.not_mem_nil b)
    | cons a2 r2 =>
      obtain ⟨m, hm, hmax⟩ := ih (by simp)
      by_cases hcmp : f a ≤ f m
      · refine ⟨m, List.mem_cons_of_mem a hm, ?_⟩
        intro b hb
        rcases List.mem_cons.mp hb with h | h
        · subst h; exact hcmp
        · exact hmax b h
      · refine ⟨a, List.mem_cons_self a _, ?_⟩
        intro b hb
        rcases List.mem_cons.mp hb with h | h
        · subst h; exact le_refl _
        · exact le_trans (hmax b h) (le_of_not_le hcmp)

theorem specChamberOK_true_iff (ch : Str) (a : IndexedAction) :
    specChamberOK ch a = true
      ↔ ¬(chamberTruthy a.chamber = true ∧ a.chamber ≠ some ch) := by
  unfold specChamberOK
  simp only [Bool.or_eq_true, Bool.not_eq_eq_eq_not, Bool.not_true, beq_iff_eq]
  constructor
  · rintro (h | h) ⟨h1, h2⟩
    · rw [h1] at h; exact absurd h (by decide)
    · exact h2 h
  · intro h
    by_cases h1 : chamberTruthy a.chamber = true
    · right
      by_contra h2
      exact h ⟨h1, h2⟩
    · left
      simpa using h1

/-- The `bestMatch`/`bestScore` loop of `resolveByMotion`, characterized:
the fold from state `(c, s)` returns the first chamber-eligible action
whose score beats `s`, reaches 0.7, and is not exceeded by any eligible
action, together with its score — or the unchanged state when no such
action exists. -/
theorem motion_fold_spec (q : Option Str) (ch : Str) :
    ∀ (l : List IndexedAction) (c : Option IndexedAction) (s : ℚ),
      l.foldl (motionStep q ch) (c, s) =
        match (l.filter (specChamberOK ch)).find? (fun x =>
            decide (s < motionScore q x) && decide (mkRat 7 10 ≤ motionScore q x)
            && (l.filter (specChamberOK ch)).all
                (fun b => decide (motionScore q b ≤ motionScore q x))) with
        | some x => (some x, motionScore q x)
        | none => (c, s) := by
  intro l
  induction l with
  | nil => intro c s; rfl
  | cons a rest ih =>
    intro c s
    rw [List.foldl_cons]
    by_cases hok : specChamberOK ch a = true
    · have hfilter : (a :: rest).filter (specChamberOK ch)
          = a :: rest.filter (specChamberOK ch) := by
        simp [List.filter_cons, hok]
      have hstep : motionStep q ch (c, s) a =
          if (compareMotions q (some a.action_text)).isMatch = true
              ∧ mkRat 7 10 ≤ motionScore q a ∧ s < motionScore q a
          then (some a, motionScore q a) else (c, s) := by
        unfold motionStep
        rw [if_neg ((specChamberOK_true_iff ch a).mp hok)]
        rfl
      rw [hfilter, hstep]
      by_cases hC : (compareMotions q (some a.action_text)).isMatch = true
          ∧ mkRat 7 10 ≤ motionScore q a ∧ s < motionScore q a
      · rw [if_pos hC, ih (some a) (motionScore q a)]
        by_cases hdom : ∀ b ∈ rest.filter (specChamberOK ch),
            motionScore q b ≤ motionScore q a
        · have hfa : (decide (s < motionScore q a)
              && decide (mkRat 7 10 ≤ motionScore q a)
              && (a :: rest.filter (specChamberOK ch)).all
                  (fun b => decide (motionScore q b ≤ motionScore q a))) = true := by
            simp only [Bool.and_eq_true, decide_eq_true_eq, List.all_cons,
              List.all_eq_true, decide_eq_true_eq]
            exact ⟨⟨hC.2.2, hC.2.1⟩, le_refl _, hdom⟩
          rw [List.find?_cons, hfa]
          have hnone : (rest.filter (specChamberOK ch)).find? (fun x =>
              decide (motionScore q a < motionScore q x)
              && decide (mkRat 7 10 ≤ motionScore q x)
              && (rest.filter (specChamberOK ch)).all
                  (fun b => decide (motionScore q b ≤ motionScore q x))) = none := by
            rw [List.find?_eq_none]
            intro x hx htrue
            simp only [Bool.and_eq_true, decide_eq_true_eq, List.all_eq_true,
              decide_eq_true_eq] at htrue
            exact absurd htrue.1.1 (not_lt.mpr (hdom x hx))
          rw [hnone]
        · push_neg at hdom
          obtain ⟨b0, hb0, hb0gt⟩ := hdom
          have hfa : (decide (s < motionScore q a)
              && decide (mkRat 7 10 ≤ motionScore q a)
              && (a :: rest.filter (specChamberOK ch)).all
                  (fun b => decide (motionScore q b ≤ motionScore q a))) = false := by
            rw [Bool.eq_false_iff]
            intro htrue
            simp only [Bool.and_eq_true, decide_eq_true_eq, List.all_cons,
              List.all_eq_true, decide_eq_true_eq] at htrue
            exact absurd (htrue.2.2 b0 hb0) (not_le.mpr hb0gt)
          rw [List.find?_cons, hfa]
          have hcongr : (rest.filter (specChamberOK ch)).find? (fun x =>
                decide (motionScore q a < motionScore q x)
                && decide (mkRat 7 10 ≤ motionScore q x)
                && (rest.filter (specChamberOK ch)).all
                    (fun b => decide (motionScore q b ≤ motionScore q x)))
              = (rest.filter (specChamberOK ch)).find? (fun x =>
                decide (s < motionScore q x)
                && decide (mkRat 7 10 ≤ motionScore q x)
                && (a :: rest.filter (specChamberOK ch)).all
                    (fun b => decide (motionScore q b ≤ motionScore q x))) := by
            refine find?_congr_mem _ _ _ ?_
            intro x hx
            rw [Bool.eq_iff_iff]
            simp only [Bool.and_eq_true, decide_eq_true_eq, List.all_cons,
              List.all_eq_true, decide_eq_true_eq]
            constructor
            · rintro ⟨⟨hax, h7⟩, hall⟩
              exact ⟨⟨lt_trans hC.2.2 hax, h7⟩, le_of_lt hax, hall⟩
            · rintro ⟨⟨_, h7⟩, _, hall⟩
              exact ⟨⟨lt_of_lt_of_le hb0gt (hall b0 hb0), h7⟩, hall⟩
          rw [← hcongr]
          have hex : ∃ y, (rest.filter (specChamberOK ch)).find? (fun x =>
              decide (motionScore q a < motionScore q x)
              && decide (mkRat 7 10 ≤ motionScore q x)
              && (rest.filter (specChamberOK ch)).all
                  (fun b => decide (motionScore q b ≤ motionScore q x))) = some y := by
            obtain ⟨m, hm, hmax⟩ := exists_max_sc (motionScore q)
              (rest.filter (specChamberOK ch)) (List.ne_nil_of_mem hb0)
            have hma : motionScore q a < motionScore q m :=
              lt_of_lt_of_le hb0gt (hmax b0 hb0)
            cases hfind : (rest.filter (specChamberOK ch)).find? (fun x =>
                decide (motionScore q a < motionScore q x)
                && decide (mkRat 7 10 ≤ motionScore q x)
                && (rest.filter (specChamberOK ch)).all
                    (fun b => decide (motionScore q b ≤ motionScore q x))) with
            | none =>
              rw [List.find?_eq_none] at hfind
              refine absurd ?_ (hfind m hm)
              simp only [Bool.and_eq_true, decide_eq_true_eq, List.all_eq_true,
                decide_eq_true_eq]
              exact ⟨⟨hma, le_trans hC.2.1 (le_of_lt hma)⟩, hmax⟩
            | some y => exact ⟨y, rfl⟩
          obtain ⟨y, hy⟩ := hex
          rw [hy]
      · rw [if_neg hC, ih c s]
        have hCs : ¬(mkRat 7 10 ≤ motionScore q a ∧ s < motionScore q a) := by
          intro hcontra
          exact hC ⟨compareMotions_match_of_score q (some a.action_text) hcontra.1,
            hcontra.1, hcontra.2⟩
        have hfa : (decide (s < motionScore q a)
            && decide (mkRat 7 10 ≤ motionScore q a)
            && (a :: rest.filter (specChamberOK ch)).all
                (fun b => decide (motionScore q b ≤ motionScore q a))) = false := by
          rw [Bool.eq_false_iff]
          intro htrue
          simp only [Bool.and_eq_true, decide_eq_true_eq, List.all_cons,
            List.all_eq_true, decide_eq_true_eq] at htrue
          exact hCs ⟨htrue.1.2, htrue.1.1⟩
        rw [List.find?_cons, hfa]
        have hcongr : (rest.filter (specChamberOK ch)).find? (fun x =>
              decide (s < motionScore q x)
              && decide (mkRat 7 10 ≤ motionScore q x)
              && (rest.filter (specChamberOK ch)).all
                  (fun b => decide (motionScore q b ≤ motionScore q x)))
            = (rest.filter (specChamberOK ch)).find? (fun x =>
              decide (s < motionScore q x)
              && decide (mkRat 7 10 ≤ motionScore q x)
              && (a :: rest.filter (specChamberOK ch)).all
                  (fun b => decide (motionScore q b ≤ motionScore q x))) := by
          refine find?_congr_mem _ _ _ ?_
          intro x hx
          rw [Bool.eq_iff_iff]
          simp only [Bool.and_eq_true, decide_eq_true_eq, List.all_cons,
            List.all_eq_true, decide_eq_true_eq]
          constructor
          · rintro ⟨⟨hs, h7⟩, hall⟩
            have hax : motionScore q a ≤ motionScore q x := by
              rcases not_and_or.mp hCs with hc | hc
              · exact le_trans (le_of_not_le hc) h7
              · exact le_trans (not_lt.mp hc) (le_of_lt hs)
            exact ⟨⟨hs, h7⟩, hax, hall⟩
          · rintro ⟨⟨hs, h7⟩, _, hall⟩
            exact ⟨⟨hs, h7⟩, hall⟩
        rw [← hcongr]
    · have hfilter : (a :: rest).filter (specChamberOK ch)
          = rest.filter (specChamberOK ch) := by
        simp [List.filter_cons, hok]
      have hskip : motionStep q ch (c, s) a = (c, s) := by
        unfold motionStep
        have hcond : chamberTruthy a.chamber = true ∧ a.chamber ≠ some ch := by
          by_contra hcon
          exact hok ((specChamberOK_true_iff ch a).mpr hcon)
        rw [if_pos hcond]
      rw [hskip, hfilter]
      exact ih c s

/-- Claim C1: `resolve` tries the strategies in fixed priority order —
direct bill-key lookup, exact roll, bill + same calendar date, motion
similarity, amendment linkage — the first success determining the result,
with confidence 1.0, 1.0, 0.9, the best `compareMotions` score, and 0.7
respectively; and the motion step selects, among same-date actions whose
chamber is unknown or equal to the vote chamber, the first-seen action
with the highest score provided that score is at least 0.7
(`specMotionPick` spells out that selection rule). -/
theorem C1_resolve_priority_order (idx : ActionIndex) (v : NormalizedVote) :
    (∀ dm, (if jsTruthyOptStr v.bill_key = true then resolveByDirectBillKey idx v
        else none) = some dm →
      ∃ r, resolve idx v = .ok r ∧ r.match_step = s2l "direct_bill_key"
        ∧ r.confidence = 1 ∧ r.bill_key = some dm.bill_key)
    ∧ ((if jsTruthyOptStr v.bill_key = true then resolveByDirectBillKey idx v
        else none) = none →
      ∀ er, resolveByExactRoll idx v = some er →
      ∃ r, resolve idx v = .ok r ∧ r.match_step = s2l "exact_roll"
        ∧ r.confidence = 1 ∧ r.bill_key = some er.bill_key)
    ∧ ((if jsTruthyOptStr v.bill_key = true then resolveByDirectBillKey idx v
        else none) = none →
      resolveByExactRoll idx v = none →
      ∀ sd, (if jsTruthyOptStr v.bill_key = true then resolveByBillSameDay idx v
        else none) = some sd →
      ∃ r, resolve idx v = .ok r ∧ r.match_step = s2l "bill_same_day"
        ∧ r.confidence = mkRat 9 10 ∧ r.bill_key = some sd.bill_key)
    ∧ ((if jsTruthyOptStr v.bill_key = true then resolveByDirectBillKey idx v
        else none) = none →
      resolveByExactRoll idx v = none →
      (if jsTruthyOptStr v.bill_key = true then resolveByBillSameDay idx v
        else none) = none →
      ∀ mm, resolveByMotion idx v = some mm →
      ∃ r, resolve idx v = .ok r ∧ r.match_step = s2l "motion"
        ∧ r.confidence = mm.score ∧ r.bill_key = some mm.action.bill_key)
    ∧ ((if jsTruthyOptStr v.bill_key = true then resolveByDirectBillKey idx v
        else none) = none →
      resolveByExactRoll idx v = none →
      (if jsTruthyOptStr v.bill_key = true then resolveByBillSameDay idx v
        else none) = none →
      resolveByMotion idx v = none →
      ∀ am, resolveByAmendment idx v = .ok (some am) →
      ∃ r, resolve idx v = .ok r ∧ r.match_step = s2l "amendment"
        ∧ r.confidence = mkRat 7 10 ∧ r.bill_key = some am.action.bill_key)
    ∧ resolveByMotion idx v
        = (specMotionPick v.question v.chamber (idx.findByDate v.vote_date)).map
            (fun a => ⟨a, motionScore v.question a⟩) := by
  refine ⟨?_, ?_, ?_, ?_, ?_, ?_⟩
  · intro dm h0
    simp only [resolve, h0]
    exact ⟨_, rfl, rfl, rfl, rfl⟩
  · intro h0 er her
    simp only [resolve, h0, her]
    exact ⟨_, rfl, rfl, rfl, rfl⟩
  · intro h0 h1 sd hsd
    simp only [resolve, h0, h1, hsd]
    exact ⟨_, rfl, rfl, rfl, rfl⟩
  · intro h0 h1 h2 mm hmm
    simp only [resolve, h0, h1, h2, hmm]
    exact ⟨_, rfl, rfl, rfl, rfl⟩
  · intro h0 h1 h2 h3 am ham
    simp only [resolve, h0, h1, h2, h3, ham]
    exact ⟨_, rfl, rfl, rfl, rfl⟩
  · simp only [resolveByMotion, specMotionPick]
    rw [motion_fold_spec]
    have hcongr : (List.filter (specChamberOK v.chamber) (idx.findByDate v.vote_date)).find?
          (fun x => decide ((0 : ℚ) < motionScore v.question x)
            && decide (mkRat 7 10 ≤ motionScore v.question x)
            && (List.filter (specChamberOK v.chamber) (idx.findByDate v.vote_date)).all
                (fun b => decide (motionScore v.question b ≤ motionScore v.question x)))
        = (List.filter (specChamberOK v.chamber) (idx.findByDate v.vote_date)).find?
          (fun x => decide (mkRat 7 10 ≤ motionScore v.question x)
            && (List.filter (specChamberOK v.chamber) (idx.findByDate v.vote_date)).all
                (fun b => decide (motionScore v.question b ≤ motionScore v.question x))) := by
      refine find?_congr_mem _ _ _ ?_
      intro x hx
      rw [Bool.eq_iff_iff]
      simp only [Bool.and_eq_true, decide_eq_true_eq]
      constructor
      · rintro ⟨⟨_, h7⟩, hall⟩
        exact ⟨h7, hall⟩
      · rintro ⟨h7, hall⟩
        exact ⟨⟨lt_of_lt_of_le (by decide : (0 : ℚ) < mkRat 7 10) h7, h7⟩, hall⟩
    rw [hcongr]
    cases hfind : (List.filter (specChamberOK v.chamber) (idx.findByDate v.vote_date)).find?
        (fun x => decide (mkRat 7 10 ≤ motionScore v.question x)
          && (List.filter (specChamberOK v.chamber) (idx.findByDate v.vote_date)).all
              (fun b => decide (motionScore v.question b ≤ motionScore v.question x))) with
    | none => rfl
    | some x => rfl

/-- Witness for C1: on a one-action index whose action matches the vote
question within the "On Passage" family, the motion strategy fires with
confidence equal to the best score (1.0). -/
theorem C1_resolve_priority_order_witness :
    ∃ r, resolve motionIdx motionVote = .ok r ∧ r.match_step = s2l "motion"
      ∧ r.confidence = 1 ∧ r.bill_key = some (s2l "118:s:42") :=
  (C1_resolve_priority_order motionIdx motionVote).2.2.2.1
    rfl rfl rfl ⟨motionIdxAction, 1⟩ (by decide)

theorem natToDec_three {n : Nat} (h1 : 100 ≤ n) (h2 : n ≤ 999) :
    natToDec n = [digitChar (n / 100), digitChar (n / 10 % 10), digitChar (n % 10)] := by
  rw [natToDec_unfold n, if_neg (by omega)]
  rw [natToDec_unfold (n / 10), if_neg (by omega)]
  rw [natToDec_unfold (n / 10 / 10), if_pos (by omega)]
  have : n / 10 / 10 = n / 100 := by omega
  rw [this]
  have : n / 10 % 10 = n / 10 % 10 := rfl
  rfl

theorem digitChar_not_space {k : Nat} (h : k < 10) : isSpaceJS (digitChar k) = false := by
  interval_cases k <;> decide

theorem digitChar_not_G1 {k : Nat} (h : k < 10) : isG1Char (digitChar k) = false := by
  interval_cases k <;> decide

theorem digitChar_not_sepTail {k : Nat} (h : k < 10) : isSepTail (digitChar k) = false := by
  interval_cases k <;> decide

theorem digitChar_not_dashSpace {k : Nat} (h : k < 10) :
    isDashSpace (digitChar k) = false := by
  interval_cases k <;> decide

theorem digitChar_lowerChar {k : Nat} (h : k < 10) :
    lowerChar (digitChar k) = digitChar k := by
  interval_cases k <;> decide

theorem digitChar_not_lowerAlpha {k : Nat} (h : k < 10) :
    isLowerAlpha (digitChar k) = false := by
  interval_cases k <;> decide

theorem takeWhile_append_all {p : Char → Bool} :
    ∀ a b : Str, (∀ c ∈ a, p c = true) → (a ++ b).takeWhile p = a ++ b.takeWhile p := by
  intro a
  induction a with
  | nil => intro b _; rfl
  | cons c cs ih =>
    intro b h
    simp [List.cons_append, List.takeWhile_cons, h c (List.mem_cons_self c cs),
      ih b (fun x hx => h x (List.mem_cons_of_mem c hx))]

theorem dropWhile_append_all {p : Char → Bool} :
    ∀ a b : Str, (∀ c ∈ a, p c = true) → (a ++ b).dropWhile p = b.dropWhile p := by
  intro a
  induction a with
  | nil => intro b _; rfl
  | cons c cs ih =>
    intro b h
    simp only [List.cons_append, List.dropWhile_cons, h c (List.mem_cons_self c cs)]
    exact ih b (fun x hx => h x (List.mem_cons_of_mem c hx))

theorem dropWhile_all {p : Char → Bool} (l : Str) (h : ∀ c ∈ l, p c = true) :
    l.dropWhile p = [] := by
  have := dropWhile_append_all l [] h
  simpa using this

theorem jsToLower_fix (l : Str) (h : ∀ c ∈ l, lowerChar c = c) : jsToLower l = l := by
  unfold jsToLower
  rw [List.map_congr_left h]
  exact List.map_id' l

theorem headNotSpace_append (a b : Str) (ha : headNotSpace a = true)
    (hb : headNotSpace b = true) : headNotSpace (a ++ b) = true := by
  cases a with
  | nil => simpa using hb
  | cons c cs => simpa [headNotSpace] using ha

theorem wsOK_of_nonspace : ∀ b : Str, (∀ c ∈ b, isSpaceJS c = false) → wsOK b = true := by
  intro b
  induction b with
  | nil => intro _; rfl
  | cons c cs ih =>
    intro h
    simp only [wsOK, Bool.and_eq_true, Bool.or_eq_true]
    exact ⟨Or.inl (by rw [h c (List.mem_cons_self c cs)]; rfl),
      ih (fun x hx => h x (List.mem_cons_of_mem c hx))⟩

theorem wsOK_append_nonspace : ∀ a b : Str, wsOK a = true →
    (∀ c ∈ b, isSpaceJS c = false) → wsOK (a ++ b) = true := by
  intro a
  induction a with
  | nil => intro b _ hb; simpa using wsOK_of_nonspace b hb
  | cons c cs ih =>
    intro b ha hb
    simp only [wsOK, Bool.and_eq_true, Bool.or_eq_true] at ha
    obtain ⟨hc, hcs⟩ := ha
    simp only [List.cons_append, wsOK, Bool.and_eq_true, Bool.or_eq_true]
    refine ⟨?_, ih b hcs hb⟩
    rcases hc with hc | hc
    · exact Or.inl hc
    · refine Or.inr ?_
      have hnsb : headNotSpace b = true := by
        cases b with
        | nil => rfl
        | cons d ds => simp [headNotSpace, hb d (List.mem_cons_self d ds)]
      exact ⟨hc.1, headNotSpace_append cs b hc.2 hnsb⟩

theorem collapseWSAux_fix : ∀ (l : Str) (flag : Bool), wsOK l = true →
    (flag = true → headNotSpace l = true) → collapseWSAux flag l = l := by
  intro l
  induction l with
  | nil => intro flag _ _; rfl
  | cons c cs ih =>
    intro flag hws hflag
    simp only [wsOK, Bool.and_eq_true, Bool.or_eq_true] at hws
    obtain ⟨hc, hcs⟩ := hws
    by_cases hsc : isSpaceJS c = true
    · have hc2 : c = ' ' ∧ headNotSpace cs = true := by
        rcases hc with hc | hc
        · rw [hsc] at hc
          exact absurd hc (by decide)
        · simpa [Bool.and_eq_true, beq_iff_eq] using hc
      have hflag2 : flag = false := by
        cases hf : flag with
        | false => rfl
        | true =>
          have := hflag hf
          simp [headNotSpace, hsc] at this
      subst hflag2
      simp only [collapseWSAux, hsc, if_true]
      rw [hc2.1]
      rw [ih true hcs (fun _ => hc2.2)]
      simp
    · simp only [collapseWSAux]
      rw [if_neg (by simpa using hsc)]
      rw [ih false hcs (by simp)]

theorem trimJS_fix (l : Str) (h1 : l.dropWhile isSpaceJS = l)
    (h2 : l.reverse.dropWhile isSpaceJS = l.reverse) : trimJS l = l := by
  unfold trimJS
  rw [h1, h2, List.reverse_reverse]

theorem congressSuffix_three (t : Str) (sep : Char) (n : Nat)
    (h100 : 100 ≤ n) (h999 : n ≤ 999)
    (hsep : isDashSpace sep = true)
    (h1 : t ≠ []) (h5 : isDashSpace (t.reverse.headD 'x') = false) :
    congressSuffix (t ++ sep :: natToDec n) = some (n, t) := by
  have hds := natToDec_three h100 h999
  have hrev : (t ++ sep :: natToDec n).reverse
      = digitChar (n % 10) :: digitChar (n / 10 % 10) :: digitChar (n / 100)
        :: sep :: t.reverse := by
    rw [hds]
    simp
  unfold congressSuffix
  rw [hrev]
  dsimp only
  rw [if_pos ?hcond]
  case hcond =>
    simp only [Bool.and_eq_true]
    exact ⟨⟨⟨digitChar_isDigit (by omega), digitChar_isDigit (by omega)⟩,
      digitChar_isDigit (by omega)⟩, hsep⟩
  have hval : decValue [digitChar (n / 100), digitChar (n / 10 % 10), digitChar (n % 10)]
      = n := by
    rw [← hds]
    exact decValue_natToDec n
  rw [hval]
  obtain ⟨d, ds, hd⟩ := List.exists_cons_of_ne_nil
    (fun hnil => h1 (List.reverse_eq_nil_iff.mp hnil))
  have hdns : isDashSpace d = false := by
    rw [hd] at h5
    simpa using h5
  rw [List.dropWhile_cons, hsep]
  simp only [if_true]
  rw [hd, dropWhile_head_false hdns, ← hd, List.reverse_reverse]

theorem allKeysOK : BILL_TYPE_MAPPINGS.all (fun p => keySideOK p.1 p.2) = true := by
  decide

/-- Core analysis of `normalizeBillId` on raw references that lower-case to
`key ++ separator ++ three digits`, where `key` is any mapping-table key,
the separator is a space or a dash, and the number has exactly three
digits; uniform over the table through the decidable side conditions
`keySideOK`. Without a congress the suffix regex consumes the digits and
every pattern fails on the bare key; with a truthy congress the standard
pattern parses the untouched string. -/
theorem normalizeBillId_threeDigit (raw t ty : Str) (sep : Char) (n : Nat)
    (h100 : 100 ≤ n) (h999 : n ≤ 999)
    (hsep : sep = ' ' ∨ sep = '-')
    (hOK : keySideOK t ty = true)
    (hraw : jsToLower raw = t ++ sep :: natToDec n) :
    normalizeBillId (some raw) none = none ∧
    ∀ c : Int, 1 ≤ c →
      normalizeBillId (some raw) (some c)
        = some ⟨ty ++ natToDec n ++ '-' :: intToDec c, ty, (n : Int), some c⟩ := by
  simp only [keySideOK, Bool.and_eq_true] at hOK
  obtain ⟨⟨⟨⟨⟨⟨⟨⟨⟨⟨⟨⟨hA, hB⟩, hC⟩, hD⟩, hE⟩, hF⟩, hG⟩, hH⟩, hI⟩, hJ⟩, hK⟩, hL⟩, hM⟩ := hOK
  have htne : t ≠ [] := by
    cases t with
    | nil => simp at hA
    | cons a b => simp
  obtain ⟨th, tt, htcons⟩ := List.exists_cons_of_ne_nil htne
  have hth : isLowerAlpha th = true := by
    rw [htcons] at hB
    simpa using hB
  have hthns : isSpaceJS th = false := by
    rw [htcons] at hC
    simpa using hC
  have hD2 : ∀ c ∈ t, isG1Char c = true := by
    simpa [List.all_eq_true] using hD
  have hE2 : ∀ c ∈ t, lowerChar c = c := by
    simp only [List.all_eq_true, beq_iff_eq] at hE
    exact hE
  have hF2 : isDashSpace (t.reverse.headD 'x') = false := by
    simpa using hF
  have hds := natToDec_three h100 h999
  have hk1 : n / 100 < 10 := by omega
  have hk2 : n / 10 % 10 < 10 := by omega
  have hk3 : n % 10 < 10 := by omega
  have hrawcons : t ++ sep :: natToDec n = th :: (tt ++ sep :: natToDec n) := by
    rw [htcons]
    rfl
  have hrawne : raw.isEmpty = false := by
    cases raw with
    | nil =>
      rw [hrawcons] at hraw
      simp [jsToLower] at hraw
    | cons a b => rfl
  have hdrop1 : (t ++ sep :: natToDec n).dropWhile isSpaceJS = t ++ sep :: natToDec n := by
    rw [hrawcons]
    exact dropWhile_head_false hthns
  have hrevraw : (t ++ sep :: natToDec n).reverse
      = digitChar (n % 10) :: digitChar (n / 10 % 10) :: digitChar (n / 100)
        :: sep :: t.reverse := by
    rw [hds]
    simp
  have hdrop2 : (t ++ sep :: natToDec n).reverse.dropWhile isSpaceJS
      = (t ++ sep :: natToDec n).reverse := by
    rw [hrevraw]
    exact dropWhile_head_false (digitChar_not_space hk3)
  have htrim : trimJS (t ++ sep :: natToDec n) = t ++ sep :: natToDec n :=
    trimJS_fix _ hdrop1 hdrop2
  have hwsts : wsOK (t ++ [sep]) = true := by
    rcases hsep with h | h <;> subst h
    · exact hG
    · exact hH
  have hdsns : ∀ c ∈ natToDec n, isSpaceJS c = false := by
    intro c hc
    rw [hds] at hc
    simp only [List.mem_cons, List.not_mem_nil, or_false] at hc
    rcases hc with hc | hc | hc <;> subst hc
    · exact digitChar_not_space hk1
    · exact digitChar_not_space hk2
    · exact digitChar_not_space hk3
  have hws : wsOK (t ++ sep :: natToDec n) = true := by
    have h := wsOK_append_nonspace (t ++ [sep]) (natToDec n) hwsts hdsns
    simpa [List.append_assoc] using h
  have hcollapse : collapseWS (t ++ sep :: natToDec n) = t ++ sep :: natToDec n := by
    unfold collapseWS
    exact collapseWSAux_fix _ false hws (by simp)
  have hclean : collapseWS (trimJS (jsToLower raw)) = t ++ sep :: natToDec n := by
    rw [hraw, htrim, hcollapse]
  have hsepds : isDashSpace sep = true := by
    rcases hsep with h | h <;> subst h <;> decide
  have hcs : congressSuffix (t ++ sep :: natToDec n) = some (n, t) :=
    congressSuffix_three t sep n h100 h999 hsepds htne hF2
  have hstd : stdPattern t = none := Option.isNone_iff_eq_none.mp hI
  have hcpt : compactPattern t = none := Option.isNone_iff_eq_none.mp hJ
  have hleg : legiscanPattern t = none := Option.isNone_iff_eq_none.mp hK
  have hn0 : n ≠ 0 := by omega
  have hdsne : (natToDec n).isEmpty = false := by
    rw [hds]
    rfl
  have hdsall : (natToDec n).all Char.isDigit = true := by
    rw [List.all_eq_true]
    exact natToDec_digits n
  refine ⟨?_, ?_⟩
  · simp only [normalizeBillId, hrawne, Bool.false_eq_true, if_false, hclean, hcs,
      congressTruthy, Bool.not_false, if_true, hstd, hcpt, hleg]
  · intro c hc
    have hct : congressTruthy (some c) = true := by
      simp only [congressTruthy, bne_iff_ne, ne_eq]
      omega
    have hstdraw : stdPattern (t ++ sep :: natToDec n)
        = some (t.takeWhile isG1Char ++ (sep :: natToDec n).takeWhile isG1Char,
            natToDec n) := by
      rw [hrawcons]
      unfold stdPattern
      dsimp only
      rw [if_pos hth]
      rw [← hrawcons]
      have hg1 : (t ++ sep :: natToDec n).takeWhile isG1Char
          = t.takeWhile isG1Char ++ (sep :: natToDec n).takeWhile isG1Char := by
        rw [takeWhile_append_all t _ hD2, takeWhile_all t hD2]
      have hrest : ((t ++ sep :: natToDec n).dropWhile isG1Char).dropWhile isSepTail
          = natToDec n := by
        rw [dropWhile_append_all t _ hD2]
        rcases hsep with h | h <;> subst h
        · rw [List.dropWhile_cons]
          simp only [show isG1Char ' ' = true from by decide, if_true]
          rw [hds, dropWhile_head_false (digitChar_not_G1 hk1),
            dropWhile_head_false (digitChar_not_sepTail hk1)]
        · rw [dropWhile_head_false (show isG1Char '-' = false from by decide)]
          rw [List.dropWhile_cons]
          simp only [show isSepTail '-' = true from by decide, if_true]
          rw [hds, dropWhile_head_false (digitChar_not_sepTail hk1)]
      rw [hg1, hrest]
      rw [if_pos (by simp [hdsne, hdsall])]
    have hlook : lookupMapping (trimJS (collapseWS
        ((t.takeWhile isG1Char ++ (sep :: natToDec n).takeWhile isG1Char).map dotToSpace)))
        = some ty := by
      rw [takeWhile_all t hD2]
      rcases hsep with h | h <;> subst h
      · have htk : (' ' :: natToDec n).takeWhile isG1Char = [' '] := by
          rw [List.takeWhile_cons]
          simp only [show isG1Char ' ' = true from by decide, if_true]
          rw [hds, List.takeWhile_cons]
          simp [digitChar_not_G1 hk1]
        rw [htk]
        simpa using hL
      · have htk : ('-' :: natToDec n).takeWhile isG1Char = [] := by
          rw [List.takeWhile_cons]
          simp [show isG1Char '-' = false from by decide]
        rw [htk, List.append_nil]
        simpa using hM
    simp only [normalizeBillId, hrawne, Bool.false_eq_true, if_false, hclean, hcs,
      hct, Bool.not_true, hstdraw, hlook, decValue_natToDec, ne_eq, hn0,
      not_false_eq_true, if_true, mkNormalizedBill, Option.getD_some]

/-- C10: for every raw bill reference that lower-cases to a mapping-table
bill-type abbreviation followed by a space or dash separator and an
exactly-3-digit bill number (such as "S 123" or "H.R. 123"),
`normalizeBillId` with no congress argument returns null - the trailing
three digits are consumed as a congress suffix, leaving a remainder with
no bill number - while the same strings normalize to the expected
canonical bill when an explicit (positive) congress is supplied. -/
theorem C10_threeDigit_congress_suffix :
    ∀ p ∈ BILL_TYPE_MAPPINGS, ∀ (raw : Str) (sep : Char) (n : Nat),
      sep = ' ' ∨ sep = '-' → 100 ≤ n → n ≤ 999 →
      jsToLower raw = p.1 ++ sep :: natToDec n →
      normalizeBillId (some raw) none = none ∧
      ∀ c : Int, 1 ≤ c →
        normalizeBillId (some raw) (some c)
          = some ⟨p.2 ++ natToDec n ++ '-' :: intToDec c, p.2, (n : Int), some c⟩ := by
  intro p hp raw sep n hsep h100 h999 hraw
  have hOK : keySideOK p.1 p.2 = true := by
    have h := List.all_eq_true.mp allKeysOK p hp
    simpa using h
  exact normalizeBillId_threeDigit raw p.1 p.2 sep n h100 h999 hsep hOK hraw

/-- Witness for C10 at the concrete inputs "S 123" (table key "s",
space separator, number 123) and congress 118. -/
theorem C10_threeDigit_congress_suffix_witness :
    ((s2l "s", s2l "s") ∈ BILL_TYPE_MAPPINGS
      ∧ (' ' = ' ' ∨ ' ' = '-') ∧ 100 ≤ 123 ∧ 123 ≤ 999
      ∧ jsToLower (s2l "S 123") = (s2l "s") ++ ' ' :: natToDec 123
      ∧ (1 : Int) ≤ 118)
    ∧ normalizeBillId (some (s2l "S 123")) none = none
    ∧ normalizeBillId (some (s2l "S 123")) (some 118)
      = some ⟨s2l "s123-118", s2l "s", (123 : Int), some 118⟩ := by
  have h := C10_threeDigit_congress_suffix (s2l "s", s2l "s") (by decide)
    (s2l "S 123") ' ' 123 (Or.inl rfl) (by decide) (by decide) (by decide)
  exact ⟨⟨by decide, Or.inl rfl, by decide, by decide, by decide, by decide⟩,
    h.1, h.2 118 (by decide)⟩
